import Mathlib

/-!
Shallow embedding of `batch_archived_or_not.py` — the batch dispatch and
aggregation engine of the "Batch Archived or Not" tool — together with proofs
about it.  The embedding covers the module constants, `HeavyLifter.ignore_file`,
`HeavyLifter.update_progress`, `HeavyLifter.process_files` (its directory walk,
per-file request handling, per-file `except` boundary, cancellation checks and
progress accounting), `HeavyLifter.find_file_count`, `HeavyLifter.save_results`,
and the row construction of `excel_export`.

The environment the Python code runs against is supplied as oracles: file sizes
(`os.path.getsize`), the outcome of opening and POSTing each file (`httpx`),
the behaviour of `json.loads` on each response body, the successive values read
from the shared `self.stop` flag, and the outcomes of the on-disk export calls.
Paths use the Windows separator, matching the deployment platform of the tool
(it produces `N:\PPDO\Records\...` display paths and the GUI accepts Windows
paths from File Explorer).
-/

namespace BatchArchivedOrNot

/-- `ADDRESS` module constant. -/
def ADDRESS : String := "ppdo-prod-app-1.vm.aws.ucsc.edu"

/-- `request_url = URL_TEMPLATE.format(ADDRESS)` computed at line 270. -/
def request_url : String := "https://" ++ ADDRESS ++ "/api/archived_or_not"

/-- `MAX_FILE_SIZE_MB` module constant (default 1000). -/
def MAX_FILE_SIZE_MB : Nat := 1000

/-- `HeavyLifter.files_to_ignore`. -/
def files_to_ignore : List String := [".DS_Store", "Thumbs.db"]

/-- Python `str.startswith`, on the character list of the string. -/
def py_startswith (s pre : String) : Bool := pre.data.isPrefixOf s.data

/-- `HeavyLifter.ignore_file`: base name in the denylist or starting with the
temporary-file marker `~$`. -/
def ignore_file (filename : String) : Bool :=
  files_to_ignore.contains filename || py_startswith filename "~$"

/-- Python `s.replace('/', '\\')`. -/
def py_replace_slash (s : String) : String :=
  ⟨s.data.map (fun c => if c = '/' then '\\' else c)⟩

/-- `os.path.join` on Windows (backslash separator). -/
def os_path_join (a b : String) : String := a ++ "\\" ++ b

/-- `os.path.relpath(p, base)` for the paths produced by `os.walk(base)`:
every walked file path extends `base` by a separator and a non-empty
remainder, so the relative path is everything after `base` plus one
separator character. -/
def os_path_relpath (p base : String) : String :=
  ⟨p.data.drop (base.data.length + 1)⟩

/-- `HeavyLifter.update_progress` (lines 190-209): the progress value emitted
for `current_count` processed files out of `total_count` — integer floor of
the percentage, clamped up to 1 when it would be 0 (and 0 for an empty
total). -/
def update_progress (current_count total_count : Nat) : Nat :=
  if total_count = 0 then 0
  else
    let progress := current_count * 100 / total_count
    if progress = 0 then 1 else progress

/-- Abstraction of the Python float formatting `f"..{file_size_mb:.1f}MB.."`
used only inside the skip-reason text: integer part and one decimal digit of
the exact rational size (`10*q` built with `mkRat` so that it evaluates).
The printed digits are not load-bearing for any claim. -/
def format_1f (q : ℚ) : String :=
  toString q.floor ++ "." ++ toString ((mkRat (q.num * 10) q.den).floor % 10)

/-- An `httpx.Timeout` configuration (connect / read / write / pool). -/
structure HttpxTimeout where
  connect : ℚ
  read : ℚ
  write : ℚ
  pool : ℚ
deriving DecidableEq, Repr

/-- `httpx.Timeout(300.0)` set on the `httpx.Client` at line 246: a single
blanket value applied to every phase. -/
def client_timeout : HttpxTimeout := ⟨300, 300, 300, 300⟩

/-- The granular per-file timeout computed at lines 294-305 from the file size
in megabytes: `connect=10`, `read=120`,
`write = max(60.0, min(600.0, 60.0 + file_size_mb * 3))`, `pool=5`. -/
def computed_timeout (file_size_mb : ℚ) : HttpxTimeout :=
  ⟨10, 120, max 60 (min 600 (60 + file_size_mb * 3)), 5⟩

/-- One HTTP POST actually handed to the `httpx` client, with the timeout
configuration in force for it.  `client.post(request_url, headers=headers,
files=files)` at line 314 passes no `timeout=` argument, so the client-level
timeout applies to the request. -/
structure IssuedRequest where
  url : String
  filepath : String
  timeout : HttpxTimeout
deriving DecidableEq, Repr

/-- What `json.loads(response.text)` does on a response body.  The
`archived_or_not` endpoint answers success with a JSON array of path strings,
so bodies are modelled as either such an array or a text on which
`json.loads` raises, with `msg` the `str` of the raised error. -/
inductive JsonLoads where
  | array (locations : List String)
  | raises (msg : String)
deriving DecidableEq, Repr

/-- A response object returned by `client.post` (any status code — `httpx`
does not raise on 4xx/5xx), together with the behaviour of `json.loads` on
its body. -/
structure HttpResponse where
  status_code : Nat
  text : String
  jsonLoads : JsonLoads
deriving DecidableEq, Repr

/-- Outcome of `open(filepath, 'rb')` plus `client.post(...)` for one file:
a response object, or a raised transport/IO error whose `str` is `msg`. -/
inductive ReqResult where
  | ok (r : HttpResponse)
  | exn (msg : String)
deriving DecidableEq, Repr

/-- The signals emitted by `HeavyLifter`: `progress` (int), `finished`
(status text) and `error` (error text). -/
inductive Event where
  | progress (n : Nat)
  | finished (s : String)
  | error (s : String)
deriving DecidableEq, Repr

/-- A value stored in the `results` dict: a Python list of location strings,
or a plain string (`"None"`, `"Skipped: ..."`, `"Error: ..."`). -/
inductive PyValue where
  | str (s : String)
  | list (l : List String)
deriving DecidableEq, Repr

/-- `d[k] = v` with Python dict semantics: update in place when the key is
present, otherwise append, preserving insertion order. -/
def dict_set (d : List (String × PyValue)) (k : String) (v : PyValue) :
    List (String × PyValue) :=
  if d.any (fun p => p.1 == k) then
    d.map (fun p => if p.1 == k then (k, v) else p)
  else d ++ [(k, v)]

/-- The run configuration handed to `HeavyLifter.__init__`. -/
structure Config where
  path : String
  exclude_src : Bool
  recursive : Bool
  only_missing_files : Bool
  output_type : String
  custom_path : String

/-- The environment of one run. -/
structure Oracle where
  /-- `os.path.getsize(filepath)` in bytes. -/
  size : String → Nat
  /-- outcome of opening and POSTing this filepath. -/
  resp : String → ReqResult
  /-- the value of the shared `self.stop` flag at its n-th read. -/
  stop : Nat → Bool
  /-- outcome of the `json_export` call: the written path, or the `str` of a
  raised exception. -/
  jsonExportResult : Except String String
  /-- outcome of the `excel_export` call. -/
  excelExportResult : Except String String

/-- Result of the location-rewriting loop: the final list, or an
`IndexError` escaping to the per-file `except` handler; in both cases the
status lines emitted so far. -/
inductive RewriteResult where
  | ok (locs : List String) (events : List Event)
  | indexError (events : List Event)
deriving DecidableEq, Repr

/-- Lines 342-346: `for i in range(len(file_locations))`, rewriting
`file_locations[i]` in place, emitting a status line for it, and
`del file_locations[i]` when `exclude_src` is set and the rewritten entry
equals `filepath`.  The `range` is computed once up front; reading an index
at or past the current length raises `IndexError`. -/
def rewrite_loop_aux (exclude_src : Bool) (filepath : String) :
    List Nat → List String → List Event → RewriteResult
  | [], locs, evs => RewriteResult.ok locs evs
  | i :: rest, locs, evs =>
    match locs[i]? with
    | none => RewriteResult.indexError evs
    | some v =>
      let v2 := "N:\\PPDO\\Records\\" ++ py_replace_slash v
      let locs2 := locs.set i v2
      let evs2 := evs ++ [Event.finished ("<pre>    " ++ v2 ++ "</pre>")]
      if exclude_src && v2 == filepath then
        rewrite_loop_aux exclude_src filepath rest (locs2.eraseIdx i) evs2
      else
        rewrite_loop_aux exclude_src filepath rest locs2 evs2

def rewrite_loop (exclude_src : Bool) (filepath : String)
    (locs : List String) : RewriteResult :=
  rewrite_loop_aux exclude_src filepath (List.range locs.length) locs []

/-- The mutable state of the `process_files` loops: the `results` dict, the
progress counter, the `response` local variable (which persists across loop
iterations), the emitted events, the POSTs issued so far, and how many times
`self.stop` has been read. -/
structure LoopState where
  results : List (String × PyValue)
  counter : Nat
  lastResponse : Option HttpResponse
  events : List Event
  issued : List IssuedRequest
  checks : Nat

/-- Lines 347-364, the per-file `except` handler.  `responseNow` is the value
of the local variable `response` at the time of the exception: the response
just received when the exception arose after `client.post` returned, else
whatever response is left over from an earlier iteration (`'response' in
locals()`), else `none`.  `filepath_now` is the value of the (re-bound)
`filepath` local at that moment and `eMsg` is `str(e)`. -/
def except_block (st : LoopState) (filepath_now relp eMsg : String)
    (responseNow : Option HttpResponse) : LoopState :=
  match responseNow with
  | some r =>
    if r.status_code ∈ [404, 400, 500, 405] then
      { st with
        events := st.events ++
          [Event.error ("Request Error for " ++ relp ++ ":<br>" ++ r.text)],
        results := dict_set st.results filepath_now
          (PyValue.str ("Error: HTTP " ++ toString r.status_code ++ ": " ++ r.text)) }
    else
      { st with
        events := st.events ++
          [Event.error ("Error processing file " ++ relp ++ ": " ++ eMsg)],
        results := dict_set st.results filepath_now
          (PyValue.str ("Error: " ++ eMsg)) }
  | none =>
    { st with
      events := st.events ++
        [Event.error ("Error processing file " ++ relp ++ ": " ++ eMsg)],
      results := dict_set st.results filepath_now
        (PyValue.str ("Error: " ++ eMsg)) }

/-- Lines 366-370: advance the progress counter, emit the progress value, and
record the outcome in `results`. -/
def record_success (total : Nat) (st : LoopState) (key : String)
    (v : PyValue) : LoopState :=
  { st with
    counter := st.counter + 1,
    events := st.events ++ [Event.progress (update_progress (st.counter + 1) total)],
    results := dict_set st.results key v }

/-- Lines 268-371: processing of one non-ignored file inside the walk. -/
def process_one_file (cfg : Config) (o : Oracle) (total : Nat)
    (root file : String) (st : LoopState) : LoopState :=
  let filepath := os_path_join root file
  let relp := os_path_relpath filepath cfg.path
  -- `file_size_mb = os.path.getsize(filepath) / (1024 * 1024)`, as the exact
  -- rational `bytes / 2^20` (built with `mkRat`, which the kernel evaluates)
  let file_size_mb : ℚ := mkRat (o.size filepath) (1024 * 1024)
  if file_size_mb > (MAX_FILE_SIZE_MB : ℚ) then
    let filepath_normalized := py_replace_slash filepath
    let error_msg := "File too large (" ++ format_1f file_size_mb ++
      "MB exceeds " ++ toString MAX_FILE_SIZE_MB ++ "MB limit)"
    { st with
      events := st.events ++
        [Event.finished ("<br><b>Skipping: " ++ relp ++ "</b>"),
         Event.finished ("<pre>    " ++ error_msg ++ "</pre>")],
      results := dict_set st.results filepath_normalized
        (PyValue.str ("Skipped: " ++ error_msg)) }
  else
    match o.resp filepath with
    | ReqResult.exn e => except_block st filepath relp e st.lastResponse
    | ReqResult.ok r =>
      let st1 : LoopState := { st with
        lastResponse := some r,
        issued := st.issued ++ [⟨request_url, filepath, client_timeout⟩] }
      let filepathB := py_replace_slash filepath
      let file_str := "Locations for " ++ py_replace_slash relp
      let st2 : LoopState :=
        if !cfg.only_missing_files then
          { st1 with events := st1.events ++
              [Event.finished ("<br><b>" ++ file_str ++ "</b>")] }
        else st1
      if r.status_code == 404 then
        let st3 : LoopState :=
          if cfg.only_missing_files then
            { st2 with events := st2.events ++
                [Event.finished ("<br><b>" ++ file_str ++ "</b>")] }
          else st2
        let st4 : LoopState := { st3 with
          events := st3.events ++ [Event.finished "\n<pre>    None</pre>"] }
        record_success total st4 filepathB (PyValue.str "None")
      else
        match r.jsonLoads with
        | JsonLoads.raises msg => except_block st2 filepathB relp msg (some r)
        | JsonLoads.array locs =>
          if !cfg.only_missing_files then
            match rewrite_loop cfg.exclude_src filepathB locs with
            | RewriteResult.ok locs2 evs =>
              record_success total { st2 with events := st2.events ++ evs }
                filepathB (PyValue.list locs2)
            | RewriteResult.indexError evs =>
              except_block { st2 with events := st2.events ++ evs }
                filepathB relp "list index out of range" (some r)
          else record_success total st2 filepathB (PyValue.list locs)

/-- Lines 250-252 / 259-262: emit the canceled status and force progress to
100. -/
def cancel_now (st : LoopState) : LoopState :=
  { st with events := st.events ++
      [Event.finished "<br><b>Process canceled.</b>", Event.progress 100] }

/-- Lines 256-371: the `for file in files` loop over one directory; returns
the state and whether the run returned due to cancellation. -/
def process_dir_files (cfg : Config) (o : Oracle) (total : Nat)
    (root : String) : List String → LoopState → LoopState × Bool
  | [], st => (st, false)
  | file :: rest, st =>
    let stopped := o.stop st.checks
    let st1 : LoopState := { st with checks := st.checks + 1 }
    if stopped then (cancel_now st1, true)
    else if ignore_file file then
      process_dir_files cfg o total root rest st1
    else
      process_dir_files cfg o total root rest
        (process_one_file cfg o total root file st1)

/-- Lines 247-375: the `for root, _, files in os.walk(self.path)` loop,
including the non-recursive break after the root directory. -/
def process_dirs (cfg : Config) (o : Oracle) (total : Nat) :
    List (String × List String) → LoopState → LoopState × Bool
  | [], st => (st, false)
  | (root, files) :: rest, st =>
    let stopped := o.stop st.checks
    let st1 : LoopState := { st with checks := st.checks + 1 }
    if stopped then (cancel_now st1, true)
    else
      match process_dir_files cfg o total root files st1 with
      | (st2, true) => (st2, true)
      | (st2, false) =>
        if root == cfg.path && !cfg.recursive then (st2, false)
        else process_dirs cfg o total rest st2

/-- `HeavyLifter.find_file_count` (lines 406-422), count only — its two
status emissions are attached in `process_files`.  With `recursive` false the
loop breaks after the first directory yielded by `os.walk`. -/
def find_file_count_loop (recursive : Bool) :
    List (String × List String) → Nat
  | [] => 0
  | (_, files) :: rest =>
    let c := (files.filter (fun f => !ignore_file f)).length
    if !recursive then c else c + find_file_count_loop recursive rest

/-- What `save_results` did: its emitted events, which exports were
attempted, and the `results` dict as it stands afterwards (the function only
reads the dict). -/
structure SaveOutcome where
  events : List Event
  jsonAttempted : Bool
  excelAttempted : Bool
  resultsOut : List (String × PyValue)

/-- `HeavyLifter.save_results` (lines 442-479).  Both export calls sit in one
`try` block whose `except` emits a single error event.  The export helpers
touch the file system; their outcome (returned path, or `str` of a raised
exception) is supplied by the oracle — the `os.path.isdir(output_location)`
check only selects the directory argument passed to them, which the oracle
outcome already reflects. -/
def save_results (cfg : Config) (o : Oracle)
    (results : List (String × PyValue)) : SaveOutcome :=
  let do_json := cfg.output_type == "json" || cfg.output_type == "json and excel"
  let do_excel := cfg.output_type == "excel" || cfg.output_type == "json and excel"
  if do_json then
    match o.jsonExportResult with
    | Except.error e =>
      ⟨[Event.error ("Error: Can\x27t export file to requested location. " ++ e ++ ".")],
        true, false, results⟩
    | Except.ok path_name =>
      let evs := [Event.finished ("<br><b>Results JSON file saved to:</b><br>" ++ path_name)]
      if do_excel then
        match o.excelExportResult with
        | Except.error e =>
          ⟨evs ++ [Event.error ("Error: Can\x27t export file to requested location. " ++ e ++ ".")],
            true, true, results⟩
        | Except.ok p2 =>
          ⟨evs ++ [Event.finished ("<br><b>Results Excel file saved to:</b><br>" ++ p2)],
            true, true, results⟩
      else ⟨evs, true, false, results⟩
  else if do_excel then
    match o.excelExportResult with
    | Except.error e =>
      ⟨[Event.error ("Error: Can\x27t export file to requested location. " ++ e ++ ".")],
        false, true, results⟩
    | Except.ok p2 =>
      ⟨[Event.finished ("<br><b>Results Excel file saved to:</b><br>" ++ p2)],
        false, true, results⟩
  else ⟨[], false, false, results⟩

/-- How one run ended. -/
inductive Terminal where
  | noFiles
  | canceled
  | completed
deriving DecidableEq, Repr

/-- The observable outcome of one `process_files` run. -/
structure RunResult where
  events : List Event
  results : List (String × PyValue)
  issued : List IssuedRequest
  counter : Nat
  save : Option SaveOutcome
  terminal : Terminal

/-- The events emitted before any file processing: the initial 0% progress
(line 235) and the two `find_file_count` status lines (lines 409, 421). -/
def init_events (total : Nat) : List Event :=
  [Event.progress 0,
   Event.finished "<b>Calculating file count...</b>",
   Event.finished ("<b>File count completed for " ++ toString total ++ " files.</b>")]

/-- The loop state on entering the walk. -/
def init_state (total : Nat) : LoopState := ⟨[], 0, none, init_events total, [], 0⟩

/-- `HeavyLifter.process_files` (lines 211-389) over a directory tree given
as the `os.walk` output in traversal order, with oracles for sizes, the
remote endpoint, the shared stop flag and the exports. -/
def process_files (cfg : Config) (o : Oracle)
    (tree : List (String × List String)) : RunResult :=
  let total := find_file_count_loop cfg.recursive tree
  if total = 0 then
    { events := init_events total ++ [Event.finished "No files found."],
      results := [], issued := [], counter := 0, save := none,
      terminal := Terminal.noFiles }
  else
    match process_dirs cfg o total tree (init_state total) with
    | (st, true) =>
      { events := st.events, results := st.results, issued := st.issued,
        counter := st.counter, save := none, terminal := Terminal.canceled }
    | (st, false) =>
      let so := save_results cfg o st.results
      { events := st.events ++ so.events ++
          [Event.finished "<br><b>Search complete.</b>"],
        results := so.resultsOut, issued := st.issued, counter := st.counter,
        save := some so, terminal := Terminal.completed }

/-- List concatenation of per-element lists (Python nested `for` append). -/
def concat_map (f : α → List β) : List α → List β
  | [] => []
  | a :: as => f a ++ concat_map f as

/-- The row construction of `excel_export` (lines 807-813): a value equal to
the literal string `"None"` or `"Error"` gives one row; any other value is
iterated with `for val in vals` — elementwise for a list, character by
character for any other string (Python string iteration). -/
def excel_rows (r : List (String × PyValue)) : List (String × String) :=
  concat_map (fun kv =>
    match kv.2 with
    | PyValue.str s =>
      if s == "None" || s == "Error" then [(kv.1, s)]
      else s.data.map (fun c => (kv.1, String.mk [c]))
    | PyValue.list l => l.map (fun v => (kv.1, v))) r

/-- Modelled from the spec (section 4.3): the exclusion filter as the spec
states it — a pure filter on the rewritten location list, removing entries
value-equal to the normalized source path.  To be compared with the in-place
deletion actually performed by `rewrite_loop`. -/
def spec_exclude_filter (filepath : String) (locs : List String) :
    List String :=
  (locs.map (fun l => "N:\\PPDO\\Records\\" ++ py_replace_slash l)).filter
    (fun l => l != filepath)

/-- The progress percentages, in emission order. -/
def progress_values (evs : List Event) : List Nat :=
  evs.filterMap (fun e =>
    match e with
    | Event.progress n => some n
    | _ => none)

/-- All file paths a tree can ever yield (joined with their directory). -/
def walk_paths (tree : List (String × List String)) : List String :=
  concat_map (fun d => d.2.map (os_path_join d.1)) tree

/-- The same oracle with the stop flag never set. -/
def no_stop_oracle (o : Oracle) : Oracle := { o with stop := fun _ => false }

/-! ### Concrete runs used by the claim theorems and witnesses -/

/-- A 404 response whose body makes `json.loads` raise (never reached for
404s, but `json.loads("")` would raise). -/
def resp404 : ReqResult :=
  ReqResult.ok ⟨404, "", JsonLoads.raises "Expecting value: line 1 column 1 (char 0)"⟩

/-- Claim C1 scenario: three files, the remote answers found / 500 / 404. -/
def c1_cfg : Config := ⟨"N:\\scan", false, false, false, "none", ""⟩

def c1_tree : List (String × List String) :=
  [("N:\\scan", ["a.txt", "b.txt", "c.txt"])]

def c1_oracle : Oracle :=
  ⟨fun _ => 0,
   fun p =>
     if p == "N:\\scan\\a.txt" then
       ReqResult.ok ⟨200, "[\"x/a.txt\"]", JsonLoads.array ["x/a.txt"]⟩
     else if p == "N:\\scan\\b.txt" then
       ReqResult.ok ⟨500, "Internal Server Error",
         JsonLoads.raises "Expecting value: line 1 column 1 (char 0)"⟩
     else resp404,
   fun _ => false, Except.ok "", Except.ok ""⟩

/-- Claim C4: one 100 MB file (104857600 bytes), the remote answers 404. -/
def c4_cfg : Config := ⟨"N:\\scan", false, false, false, "none", ""⟩

def c4_tree : List (String × List String) := [("N:\\scan", ["big.bin"])]

def c4_oracle : Oracle :=
  ⟨fun _ => 104857600, fun _ => resp404, fun _ => false, Except.ok "", Except.ok ""⟩

/-- Claim C5: one file found at the server-relative location `a/b`; two runs
differing only in `only_missing_files`. -/
def c5_cfg_off : Config := ⟨"N:\\scan", false, false, false, "none", ""⟩

def c5_cfg_on : Config := ⟨"N:\\scan", false, false, true, "none", ""⟩

def c5_tree : List (String × List String) := [("N:\\scan", ["a.txt"])]

def c5_oracle : Oracle :=
  ⟨fun _ => 0,
   fun _ => ReqResult.ok ⟨200, "[\"a/b\"]", JsonLoads.array ["a/b"]⟩,
   fun _ => false, Except.ok "", Except.ok ""⟩

/-- Claim C6: `exclude_src` set, scanning inside the archive share; the
remote returns the source itself first and one other location. -/
def c6_cfg : Config := ⟨"N:\\PPDO\\Records\\proj", true, false, false, "none", ""⟩

def c6_tree : List (String × List String) :=
  [("N:\\PPDO\\Records\\proj", ["a.txt"])]

def c6_oracle : Oracle :=
  ⟨fun _ => 0,
   fun _ => ReqResult.ok ⟨200, "[\"proj/a.txt\", \"proj/b.txt\"]",
     JsonLoads.array ["proj/a.txt", "proj/b.txt"]⟩,
   fun _ => false, Except.ok "", Except.ok ""⟩

/-- Claim C7 counterexample: two files, the second suffers a transport
error, the run completes normally. -/
def c7_cfg : Config := ⟨"N:\\scan", false, false, false, "none", ""⟩

def c7_tree : List (String × List String) := [("N:\\scan", ["a.txt", "b.txt"])]

def c7_oracle : Oracle :=
  ⟨fun _ => 0,
   fun p => if p == "N:\\scan\\a.txt" then resp404
     else ReqResult.exn "Connection refused",
   fun _ => false, Except.ok "", Except.ok ""⟩

/-- Claim C8 witness: recursive run over two directories with one ignored
file each; one file succeeds, one fails. -/
def c8_cfg : Config := ⟨"N:\\scan", false, true, false, "none", ""⟩

def c8_tree : List (String × List String) :=
  [("N:\\scan", ["a.txt", "Thumbs.db"]), ("N:\\scan\\sub", ["b.txt", "~$tmp.xlsx"])]

def c8_oracle : Oracle :=
  ⟨fun _ => 0,
   fun p => if p == "N:\\scan\\a.txt" then resp404
     else ReqResult.exn "timeout",
   fun _ => false, Except.ok "", Except.ok ""⟩

/-- Claim C9 witness: two files; the stop flag is observed set at the third
read, the boundary before the second file. -/
def c9_cfg : Config := ⟨"N:\\scan", false, false, false, "json", ""⟩

def c9_tree : List (String × List String) := [("N:\\scan", ["a.txt", "b.txt"])]

def c9_oracle : Oracle :=
  ⟨fun _ => 0, fun _ => resp404, fun n => n == 2, Except.ok "out.json", Except.ok ""⟩

/-- Claim C10 witness: `json and excel` mode where the JSON export raises. -/
def c10_cfg : Config := ⟨"N:\\scan", false, false, false, "json and excel", "C:\\out"⟩

def c10_tree : List (String × List String) := [("N:\\scan", ["a.txt"])]

def c10_oracle : Oracle :=
  ⟨fun _ => 0, fun _ => resp404, fun _ => false,
   Except.error "Permission denied", Except.ok "x"⟩

/-- The shapes of events that processing a single file can add to the
stream: a skip header, a locations header, an indented status line, the
literal 404 "None" line, an error event, or a progress value. -/
def per_file_event_shape (e : Event) : Prop :=
  (∃ s, e = Event.finished ("<br><b>Skipping: " ++ s)) ∨
  (∃ s, e = Event.finished ("<br><b>Locations for " ++ s)) ∨
  (∃ s, e = Event.finished ("<pre>    " ++ s)) ∨
  e = Event.finished "\n<pre>    None</pre>" ∨
  (∃ s, e = Event.error s) ∨
  (∃ n, e = Event.progress n)

/-! ## Basic lemmas about the embedding -/

theorem dict_set_fresh (d : List (String × PyValue)) (k : String)
    (v : PyValue) (h : ∀ p ∈ d, p.1 ≠ k) :
    dict_set d k v = d ++ [(k, v)] := by
  have hc : ¬ (d.any (fun p => p.1 == k) = true) := by
    simp only [List.any_eq_true, not_exists, not_and, Bool.not_eq_true]
    intro p hp
    exact beq_eq_false_iff_ne.mpr (h p hp)
  unfold dict_set
  rw [if_neg hc]

theorem progress_values_append (a b : List Event) :
    progress_values (a ++ b) = progress_values a ++ progress_values b := by
  unfold progress_values
  exact List.filterMap_append a b _

theorem progress_values_finished (s : String) :
    progress_values [Event.finished s] = [] := rfl

theorem progress_values_error (s : String) :
    progress_values [Event.error s] = [] := rfl

/-- The events list produced by `rewrite_loop_aux` extends the accumulator,
and the added part holds only `finished` status lines whose text starts with
`"<pre>    "`. -/
theorem rewrite_loop_aux_events_shape (ex : Bool) (fp : String) :
    ∀ (idx : List Nat) (locs : List String) (evs : List Event),
      (∃ new, (∀ e ∈ new, ∃ s, e = Event.finished ("<pre>    " ++ s)) ∧
        ((∃ l, rewrite_loop_aux ex fp idx locs evs = RewriteResult.ok l (evs ++ new)) ∨
         rewrite_loop_aux ex fp idx locs evs = RewriteResult.indexError (evs ++ new))) := by
  intro idx
  induction idx with
  | nil =>
    intro locs evs
    exact ⟨[], by simp, Or.inl ⟨locs, by simp [rewrite_loop_aux]⟩⟩
  | cons i rest ih =>
    intro locs evs
    unfold rewrite_loop_aux
    cases hg : locs[i]? with
    | none =>
      exact ⟨[], by simp, Or.inr (by simp)⟩
    | some v =>
      simp only
      by_cases hdel : (ex && ("N:\\PPDO\\Records\\" ++ py_replace_slash v) == fp) = true
      · rw [if_pos hdel]
        obtain ⟨new, hnew, hres⟩ := ih
          ((locs.set i ("N:\\PPDO\\Records\\" ++ py_replace_slash v)).eraseIdx i)
          (evs ++ [Event.finished ("<pre>    " ++ ("N:\\PPDO\\Records\\" ++ py_replace_slash v) ++ "</pre>")])
        refine ⟨Event.finished ("<pre>    " ++ ("N:\\PPDO\\Records\\" ++ py_replace_slash v) ++ "</pre>") :: new, ?_, ?_⟩
        · intro e he
          rw [List.mem_cons] at he
          rcases he with he | he
          · exact ⟨("N:\\PPDO\\Records\\" ++ py_replace_slash v) ++ "</pre>",
              by rw [he, String.append_assoc]⟩
          · exact hnew e he
        · rcases hres with ⟨l, hl⟩ | hl
          · exact Or.inl ⟨l, by rw [hl]; simp⟩
          · exact Or.inr (by rw [hl]; simp)
      · rw [if_neg hdel]
        obtain ⟨new, hnew, hres⟩ := ih
          (locs.set i ("N:\\PPDO\\Records\\" ++ py_replace_slash v))
          (evs ++ [Event.finished ("<pre>    " ++ ("N:\\PPDO\\Records\\" ++ py_replace_slash v) ++ "</pre>")])
        refine ⟨Event.finished ("<pre>    " ++ ("N:\\PPDO\\Records\\" ++ py_replace_slash v) ++ "</pre>") :: new, ?_, ?_⟩
        · intro e he
          rw [List.mem_cons] at he
          rcases he with he | he
          · exact ⟨("N:\\PPDO\\Records\\" ++ py_replace_slash v) ++ "</pre>",
              by rw [he, String.append_assoc]⟩
          · exact hnew e he
        · rcases hres with ⟨l, hl⟩ | hl
          · exact Or.inl ⟨l, by rw [hl]; simp⟩
          · exact Or.inr (by rw [hl]; simp)

/-- A string without forward slashes is unchanged by `replace('/', '\\')`. -/
theorem py_replace_slash_eq_self (s : String) (h : ¬ '/' ∈ s.data) :
    py_replace_slash s = s := by
  unfold py_replace_slash
  have hmap : s.data.map (fun c => if c = '/' then '\\' else c) = s.data := by
    have : ∀ c ∈ s.data, (if c = '/' then '\\' else c) = c := by
      intro c hc
      rw [if_neg]
      intro he
      exact h (he ▸ hc)
    calc s.data.map (fun c => if c = '/' then '\\' else c)
        = s.data.map id := List.map_congr_left this
      _ = s.data := List.map_id s.data
  cases s with
  | mk data => exact congrArg String.mk hmap

theorem header_shape (x : String) :
    "<br><b>" ++ ("Locations for " ++ x) ++ "</b>" =
      "<br><b>Locations for " ++ (x ++ "</b>") := by
  have h1 : ("<br><b>" : String) ++ "Locations for " = "<br><b>Locations for " := by decide
  rw [← String.append_assoc "<br><b>" "Locations for " x, h1, String.append_assoc]

/-- The `except` handler adds exactly one error event and records exactly one
`"Error: ..."` string under the current `filepath`. -/
theorem except_block_spec (st : LoopState) (fp relp eMsg : String)
    (ro : Option HttpResponse) :
    ∃ (s : String) (msg : String),
      except_block st fp relp eMsg ro =
        { st with events := st.events ++ [Event.error s],
                  results := dict_set st.results fp (PyValue.str ("Error: " ++ msg)) } := by
  unfold except_block
  cases ro with
  | none => exact ⟨_, _, rfl⟩
  | some r =>
    dsimp only
    by_cases h : r.status_code ∈ [404, 400, 500, 405]
    · rw [if_pos h]
      exact ⟨_, "HTTP " ++ toString r.status_code ++ ": " ++ r.text, rfl⟩
    · rw [if_neg h]
      exact ⟨_, eMsg, rfl⟩

theorem progress_values_nil_of_finished (l : List Event)
    (h : ∀ e ∈ l, ∃ s, e = Event.finished s) : progress_values l = [] := by
  unfold progress_values
  rw [List.filterMap_eq_nil_iff]
  intro e he
  obtain ⟨s, hs⟩ := h e he
  rw [hs]

/-- Characterization of one per-file step: it records exactly one outcome
under the file path (raw or backslash-normalized), appends events of the
per-file shapes, leaves the stop-read cursor alone, either keeps the counter
(emitting no progress) or advances it by one (emitting exactly the
corresponding progress value), and issues requests only with the blanket
client timeout. -/
theorem process_one_file_spec (cfg : Config) (o : Oracle) (total : Nat)
    (root file : String) (st : LoopState) :
    ∃ (k : String) (v : PyValue) (new : List Event),
      (k = os_path_join root file ∨ k = py_replace_slash (os_path_join root file)) ∧
      (process_one_file cfg o total root file st).results = dict_set st.results k v ∧
      (process_one_file cfg o total root file st).events = st.events ++ new ∧
      (process_one_file cfg o total root file st).checks = st.checks ∧
      (((process_one_file cfg o total root file st).counter = st.counter ∧
          progress_values new = []) ∨
       ((process_one_file cfg o total root file st).counter = st.counter + 1 ∧
          progress_values new = [update_progress (st.counter + 1) total])) ∧
      (∀ r ∈ (process_one_file cfg o total root file st).issued,
        r ∈ st.issued ∨ r.timeout = client_timeout) ∧
      (∀ e ∈ new, per_file_event_shape e) := by
  simp only [process_one_file]
  by_cases hsz : mkRat (o.size (os_path_join root file)) (1024 * 1024) > (MAX_FILE_SIZE_MB : ℚ)
  · rw [if_pos hsz]
    refine ⟨py_replace_slash (os_path_join root file), _, _, Or.inr rfl, rfl, rfl, rfl,
      Or.inl ⟨rfl, rfl⟩, ?_, ?_⟩
    · intro r hr; exact Or.inl hr
    · intro e he
      rw [List.mem_cons] at he
      rcases he with he | he
      · exact Or.inl ⟨os_path_relpath (os_path_join root file) cfg.path ++ "</b>",
          by rw [he, String.append_assoc]⟩
      · rw [List.mem_singleton] at he
        exact Or.inr (Or.inr (Or.inl ⟨_, by rw [he, String.append_assoc]⟩))
  · rw [if_neg hsz]
    cases ho : o.resp (os_path_join root file) with
    | exn e =>
      dsimp only
      obtain ⟨s, msg, hspec⟩ := except_block_spec st (os_path_join root file)
        (os_path_relpath (os_path_join root file) cfg.path) e st.lastResponse
      rw [hspec]
      exact ⟨os_path_join root file, PyValue.str ("Error: " ++ msg), [Event.error s],
        Or.inl rfl, rfl, rfl, rfl, Or.inl ⟨rfl, rfl⟩,
        fun r hr => Or.inl hr, fun e' he' => by
          rw [List.mem_singleton] at he'
          exact Or.inr (Or.inr (Or.inr (Or.inr (Or.inl ⟨s, he'⟩))))⟩
    | ok r =>
      dsimp only
      cases homf : cfg.only_missing_files with
      | false =>
        simp only [homf, Bool.not_false, Bool.false_eq_true, if_true, if_false]
        by_cases h404 : (r.status_code == 404) = true
        · rw [if_pos h404]
          refine ⟨py_replace_slash (os_path_join root file), PyValue.str "None",
            [Event.finished ("<br><b>" ++ ("Locations for " ++
                py_replace_slash (os_path_relpath (os_path_join root file) cfg.path)) ++ "</b>"),
             Event.finished "\n<pre>    None</pre>",
             Event.progress (update_progress (st.counter + 1) total)],
            Or.inr rfl, rfl, by simp [record_success, List.append_assoc], rfl,
            Or.inr ⟨rfl, rfl⟩, ?_, ?_⟩
          · intro q hq
            simp only [record_success] at hq
            rw [List.mem_append] at hq
            rcases hq with hq | hq
            · exact Or.inl hq
            · rw [List.mem_singleton] at hq
              subst hq
              exact Or.inr rfl
          · intro e he
            rw [List.mem_cons, List.mem_cons, List.mem_singleton] at he
            rcases he with he | he | he
            · exact Or.inr (Or.inl ⟨_, by rw [he, header_shape]⟩)
            · exact Or.inr (Or.inr (Or.inr (Or.inl he)))
            · exact Or.inr (Or.inr (Or.inr (Or.inr (Or.inr ⟨_, he⟩))))
        · rw [if_neg h404]
          cases hj : r.jsonLoads with
          | raises msg =>
            dsimp only
            obtain ⟨s, m, hspec⟩ := except_block_spec
              { st with
                  lastResponse := some r,
                  issued := st.issued ++ [⟨request_url, os_path_join root file, client_timeout⟩],
                  events := st.events ++ [Event.finished ("<br><b>" ++ ("Locations for " ++
                    py_replace_slash (os_path_relpath (os_path_join root file) cfg.path)) ++ "</b>")] }
              (py_replace_slash (os_path_join root file))
              (os_path_relpath (os_path_join root file) cfg.path) msg (some r)
            rw [hspec]
            refine ⟨py_replace_slash (os_path_join root file), PyValue.str ("Error: " ++ m),
              [Event.finished ("<br><b>" ++ ("Locations for " ++
                py_replace_slash (os_path_relpath (os_path_join root file) cfg.path)) ++ "</b>"),
               Event.error s],
              Or.inr rfl, rfl, by simp [List.append_assoc], rfl, Or.inl ⟨rfl, rfl⟩, ?_, ?_⟩
            · intro q hq
              rw [List.mem_append] at hq
              rcases hq with hq | hq
              · exact Or.inl hq
              · rw [List.mem_singleton] at hq
                subst hq
                exact Or.inr rfl
            · intro e he
              rw [List.mem_cons, List.mem_singleton] at he
              rcases he with he | he
              · exact Or.inr (Or.inl ⟨_, by rw [he, header_shape]⟩)
              · exact Or.inr (Or.inr (Or.inr (Or.inr (Or.inl ⟨s, he⟩))))
          | array locs =>
            dsimp only
            obtain ⟨new, hshapes, hres⟩ := rewrite_loop_aux_events_shape
              cfg.exclude_src (py_replace_slash (os_path_join root file))
              (List.range locs.length) locs []
            rcases hres with ⟨l, hl⟩ | hl
            · rw [show rewrite_loop cfg.exclude_src (py_replace_slash (os_path_join root file)) locs
                  = RewriteResult.ok l ([] ++ new) from hl]
              dsimp only
              refine ⟨py_replace_slash (os_path_join root file), PyValue.list l,
                [Event.finished ("<br><b>" ++ ("Locations for " ++
                  py_replace_slash (os_path_relpath (os_path_join root file) cfg.path)) ++ "</b>")] ++
                  new ++ [Event.progress (update_progress (st.counter + 1) total)],
                Or.inr rfl, rfl, by simp [record_success, List.append_assoc], rfl,
                Or.inr ⟨rfl, ?_⟩, ?_, ?_⟩
              · rw [progress_values_append, progress_values_append]
                rw [progress_values_nil_of_finished new
                  (fun e he => by obtain ⟨s2, hs2⟩ := hshapes e he; exact ⟨_, hs2⟩)]
                rfl
              · intro q hq
                simp only [record_success] at hq
                rw [List.mem_append] at hq
                rcases hq with hq | hq
                · exact Or.inl hq
                · rw [List.mem_singleton] at hq
                  subst hq
                  exact Or.inr rfl
              · intro e he
                rw [List.mem_append, List.mem_append] at he
                rcases he with (he | he) | he
                · rw [List.mem_singleton] at he
                  exact Or.inr (Or.inl ⟨_, by rw [he, header_shape]⟩)
                · obtain ⟨s2, hs2⟩ := hshapes e he
                  exact Or.inr (Or.inr (Or.inl ⟨s2, hs2⟩))
                · rw [List.mem_singleton] at he
                  exact Or.inr (Or.inr (Or.inr (Or.inr (Or.inr ⟨_, he⟩))))
            · rw [show rewrite_loop cfg.exclude_src (py_replace_slash (os_path_join root file)) locs
                  = RewriteResult.indexError ([] ++ new) from hl]
              dsimp only
              obtain ⟨s, m, hspec⟩ := except_block_spec
                { st with
                    lastResponse := some r,
                    issued := st.issued ++ [⟨request_url, os_path_join root file, client_timeout⟩],
                    events := (st.events ++ [Event.finished ("<br><b>" ++ ("Locations for " ++
                      py_replace_slash (os_path_relpath (os_path_join root file) cfg.path)) ++ "</b>")]) ++
                      ([] ++ new) }
                (py_replace_slash (os_path_join root file))
                (os_path_relpath (os_path_join root file) cfg.path)
                "list index out of range" (some r)
              rw [hspec]
              refine ⟨py_replace_slash (os_path_join root file), PyValue.str ("Error: " ++ m),
                [Event.finished ("<br><b>" ++ ("Locations for " ++
                  py_replace_slash (os_path_relpath (os_path_join root file) cfg.path)) ++ "</b>")] ++
                  new ++ [Event.error s],
                Or.inr rfl, rfl, by simp [List.append_assoc], rfl, Or.inl ⟨rfl, ?_⟩, ?_, ?_⟩
              · rw [progress_values_append, progress_values_append]
                rw [progress_values_nil_of_finished new
                  (fun e he => by obtain ⟨s2, hs2⟩ := hshapes e he; exact ⟨_, hs2⟩)]
                rfl
              · intro q hq
                rw [List.mem_append] at hq
                rcases hq with hq | hq
                · exact Or.inl hq
                · rw [List.mem_singleton] at hq
                  subst hq
                  exact Or.inr rfl
              · intro e he
                rw [List.mem_append, List.mem_append] at he
                rcases he with (he | he) | he
                · rw [List.mem_singleton] at he
                  exact Or.inr (Or.inl ⟨_, by rw [he, header_shape]⟩)
                · obtain ⟨s2, hs2⟩ := hshapes e he
                  exact Or.inr (Or.inr (Or.inl ⟨s2, hs2⟩))
                · rw [List.mem_singleton] at he
                  exact Or.inr (Or.inr (Or.inr (Or.inr (Or.inl ⟨_, he⟩))))
      | true =>
        simp only [homf, Bool.not_true, Bool.false_eq_true, if_true, if_false]
        by_cases h404 : (r.status_code == 404) = true
        · rw [if_pos h404]
          refine ⟨py_replace_slash (os_path_join root file), PyValue.str "None",
            [Event.finished ("<br><b>" ++ ("Locations for " ++
                py_replace_slash (os_path_relpath (os_path_join root file) cfg.path)) ++ "</b>"),
             Event.finished "\n<pre>    None</pre>",
             Event.progress (update_progress (st.counter + 1) total)],
            Or.inr rfl, rfl, by simp [record_success, List.append_assoc], rfl,
            Or.inr ⟨rfl, rfl⟩, ?_, ?_⟩
          · intro q hq
            simp only [record_success] at hq
            rw [List.mem_append] at hq
            rcases hq with hq | hq
            · exact Or.inl hq
            · rw [List.mem_singleton] at hq
              subst hq
              exact Or.inr rfl
          · intro e he
            rw [List.mem_cons, List.mem_cons, List.mem_singleton] at he
            rcases he with he | he | he
            · exact Or.inr (Or.inl ⟨_, by rw [he, header_shape]⟩)
            · exact Or.inr (Or.inr (Or.inr (Or.inl he)))
            · exact Or.inr (Or.inr (Or.inr (Or.inr (Or.inr ⟨_, he⟩))))
        · rw [if_neg h404]
          cases hj : r.jsonLoads with
          | raises msg =>
            dsimp only
            obtain ⟨s, m, hspec⟩ := except_block_spec
              { st with
                  lastResponse := some r,
                  issued := st.issued ++ [⟨request_url, os_path_join root file, client_timeout⟩] }
              (py_replace_slash (os_path_join root file))
              (os_path_relpath (os_path_join root file) cfg.path) msg (some r)
            rw [hspec]
            refine ⟨py_replace_slash (os_path_join root file), PyValue.str ("Error: " ++ m),
              [Event.error s],
              Or.inr rfl, rfl, by simp [List.append_assoc], rfl, Or.inl ⟨rfl, rfl⟩, ?_, ?_⟩
            · intro q hq
              rw [List.mem_append] at hq
              rcases hq with hq | hq
              · exact Or.inl hq
              · rw [List.mem_singleton] at hq
                subst hq
                exact Or.inr rfl
            · intro e he
              rw [List.mem_singleton] at he
              exact Or.inr (Or.inr (Or.inr (Or.inr (Or.inl ⟨s, he⟩))))
          | array locs =>
            dsimp only
            refine ⟨py_replace_slash (os_path_join root file), PyValue.list locs,
              [Event.progress (update_progress (st.counter + 1) total)],
              Or.inr rfl, rfl, by simp [record_success, List.append_assoc], rfl,
              Or.inr ⟨rfl, rfl⟩, ?_, ?_⟩
            · intro q hq
              simp only [record_success] at hq
              rw [List.mem_append] at hq
              rcases hq with hq | hq
              · exact Or.inl hq
              · rw [List.mem_singleton] at hq
                subst hq
                exact Or.inr rfl
            · intro e he
              rw [List.mem_singleton] at he
              exact Or.inr (Or.inr (Or.inr (Or.inr (Or.inr ⟨_, he⟩))))

/-- With the stop flag never set, the file loop never cancels. -/
theorem process_dir_files_no_cancel (cfg : Config) (o : Oracle) (total : Nat)
    (root : String) (hstop : ∀ n, o.stop n = false) :
    ∀ (files : List String) (st : LoopState),
      (process_dir_files cfg o total root files st).2 = false := by
  intro files
  induction files with
  | nil => intro st; rfl
  | cons f rest ih =>
    intro st
    simp only [process_dir_files, hstop, Bool.false_eq_true, if_false]
    by_cases hf : ignore_file f = true
    · rw [if_pos hf]; exact ih _
    · rw [if_neg hf]; exact ih _

/-- With the stop flag never set, the directory loop never cancels. -/
theorem process_dirs_no_cancel (cfg : Config) (o : Oracle) (total : Nat)
    (hstop : ∀ n, o.stop n = false) :
    ∀ (dirs : List (String × List String)) (st : LoopState),
      (process_dirs cfg o total dirs st).2 = false := by
  intro dirs
  induction dirs with
  | nil => intro st; rfl
  | cons d rest ih =>
    intro st
    obtain ⟨root, files⟩ := d
    simp only [process_dirs, hstop, Bool.false_eq_true, if_false]
    have hb := process_dir_files_no_cancel cfg o total root hstop files
      { st with checks := st.checks + 1 }
    rcases hfd : process_dir_files cfg o total root files
        { st with checks := st.checks + 1 } with ⟨st2, b⟩
    rw [hfd] at hb
    have hb' : b = false := hb
    subst hb'
    dsimp only
    by_cases hbrk : (root == cfg.path && !cfg.recursive) = true
    · rw [if_pos hbrk]
    · rw [if_neg hbrk]; exact ih _

/-- A run with the stop flag never set and a non-zero pre-count reaches
`Completed`: the walk finishes, `save_results` runs, and the final
"Search complete." status is the last event. -/
theorem process_files_completed_spec (cfg : Config) (o : Oracle)
    (tree : List (String × List String))
    (hstop : ∀ n, o.stop n = false)
    (htot : find_file_count_loop cfg.recursive tree ≠ 0) :
    ∃ st : LoopState,
      process_dirs cfg o (find_file_count_loop cfg.recursive tree) tree
        (init_state (find_file_count_loop cfg.recursive tree)) = (st, false) ∧
      process_files cfg o tree =
        { events := st.events ++ (save_results cfg o st.results).events ++
            [Event.finished "<br><b>Search complete.</b>"],
          results := (save_results cfg o st.results).resultsOut,
          issued := st.issued, counter := st.counter,
          save := some (save_results cfg o st.results),
          terminal := Terminal.completed } := by
  have hb := process_dirs_no_cancel cfg o (find_file_count_loop cfg.recursive tree)
    hstop tree (init_state (find_file_count_loop cfg.recursive tree))
  rcases hp : process_dirs cfg o (find_file_count_loop cfg.recursive tree) tree
      (init_state (find_file_count_loop cfg.recursive tree)) with ⟨st, b⟩
  rw [hp] at hb
  have hb' : b = false := hb
  subst hb'
  refine ⟨st, rfl, ?_⟩
  simp only [process_files]
  rw [if_neg htot, hp]

/-- The file loop only ever issues requests carrying the blanket client
timeout. -/
theorem process_dir_files_issued_blanket (cfg : Config) (o : Oracle)
    (total : Nat) (root : String) :
    ∀ (files : List String) (st : LoopState),
      (∀ q ∈ st.issued, q.timeout = client_timeout) →
      ∀ q ∈ (process_dir_files cfg o total root files st).1.issued,
        q.timeout = client_timeout := by
  intro files
  induction files with
  | nil => intro st h; exact h
  | cons f rest ih =>
    intro st h
    simp only [process_dir_files]
    by_cases hs : o.stop st.checks = true
    · rw [if_pos hs]
      exact h
    · rw [if_neg hs]
      by_cases hf : ignore_file f = true
      · rw [if_pos hf]; exact ih _ h
      · rw [if_neg hf]
        refine ih _ ?_
        obtain ⟨k, v, new, _, _, _, _, _, hiss, _⟩ :=
          process_one_file_spec cfg o total root f { st with checks := st.checks + 1 }
        intro q hq
        rcases hiss q hq with hq' | hq'
        · exact h q hq'
        · exact hq'

/-- The directory loop only ever issues requests carrying the blanket client
timeout. -/
theorem process_dirs_issued_blanket (cfg : Config) (o : Oracle) (total : Nat) :
    ∀ (dirs : List (String × List String)) (st : LoopState),
      (∀ q ∈ st.issued, q.timeout = client_timeout) →
      ∀ q ∈ (process_dirs cfg o total dirs st).1.issued,
        q.timeout = client_timeout := by
  intro dirs
  induction dirs with
  | nil => intro st h; exact h
  | cons d rest ih =>
    intro st h
    obtain ⟨root, files⟩ := d
    simp only [process_dirs]
    by_cases hs : o.stop st.checks = true
    · rw [if_pos hs]
      exact h
    · rw [if_neg hs]
      have hfd' := process_dir_files_issued_blanket cfg o total root files
        { st with checks := st.checks + 1 } h
      rcases hfd : process_dir_files cfg o total root files
          { st with checks := st.checks + 1 } with ⟨st2, b⟩
      rw [hfd] at hfd'
      cases b with
      | true => exact hfd'
      | false =>
        dsimp only
        by_cases hbrk : (root == cfg.path && !cfg.recursive) = true
        · rw [if_pos hbrk]; exact hfd'
        · rw [if_neg hbrk]; exact ih _ hfd'

/-- Every request the run issues carries the blanket client timeout. -/
theorem process_files_issued_blanket (cfg : Config) (o : Oracle)
    (tree : List (String × List String)) :
    ∀ q ∈ (process_files cfg o tree).issued, q.timeout = client_timeout := by
  by_cases htot : find_file_count_loop cfg.recursive tree = 0
  · simp only [process_files]
    rw [if_pos htot]
    intro q hq
    simp at hq
  · simp only [process_files]
    rw [if_neg htot]
    have hall := process_dirs_issued_blanket cfg o (find_file_count_loop cfg.recursive tree)
      tree (init_state (find_file_count_loop cfg.recursive tree))
      (by intro q hq; simp [init_state] at hq)
    rcases hp : process_dirs cfg o (find_file_count_loop cfg.recursive tree) tree
        (init_state (find_file_count_loop cfg.recursive tree)) with ⟨st, b⟩
    rw [hp] at hall
    cases b with
    | true => exact hall
    | false => exact hall

/-! ## Claim theorems -/

/-- Claim C1 (confirmed): any error during the check of a single file is
caught at the per-file boundary and converted to a per-file outcome, so a run
with the stop flag never set and at least one counted file always reaches
`Completed` and emits the final "Search complete." status; in particular the
3-file scenario where the remote returns 500 (with a non-JSON body) for
exactly the second file records outcomes for files 1 and 3, a Failed outcome
keyed by file 2's path, and still completes. -/
theorem C1_per_file_error_isolation (cfg : Config) (o : Oracle)
    (tree : List (String × List String))
    (hstop : ∀ n, o.stop n = false)
    (htot : find_file_count_loop cfg.recursive tree ≠ 0) :
    ((process_files cfg o tree).terminal = Terminal.completed ∧
      Event.finished "<br><b>Search complete.</b>" ∈ (process_files cfg o tree).events) ∧
    ((process_files c1_cfg c1_oracle c1_tree).results =
      [("N:\\scan\\a.txt", PyValue.list ["N:\\PPDO\\Records\\x\\a.txt"]),
       ("N:\\scan\\b.txt", PyValue.str "Error: HTTP 500: Internal Server Error"),
       ("N:\\scan\\c.txt", PyValue.str "None")] ∧
     (process_files c1_cfg c1_oracle c1_tree).terminal = Terminal.completed ∧
     Event.finished "<br><b>Search complete.</b>" ∈
       (process_files c1_cfg c1_oracle c1_tree).events) := by
  obtain ⟨st, hp, heq⟩ := process_files_completed_spec cfg o tree hstop htot
  refine ⟨⟨by rw [heq], by rw [heq]; simp⟩, by decide, by decide, by decide⟩

theorem C1_per_file_error_isolation_witness :
    (process_files c1_cfg c1_oracle c1_tree).terminal = Terminal.completed ∧
    Event.finished "<br><b>Search complete.</b>" ∈
      (process_files c1_cfg c1_oracle c1_tree).events :=
  (C1_per_file_error_isolation c1_cfg c1_oracle c1_tree (fun _ => rfl) (by decide)).1

/-- Claim C2 (code evidence for the code_bug): `excel_export` special-cases
only the literal strings `"None"` and `"Error"`.  A failure is recorded by
`process_files` as `"Error: <message>"`, which falls through to the
`for val in vals` loop and is iterated character by character: the entry
`("f.txt", "Error: x")` yields eight one-character rows instead of the single
row the claim states.  The `"None"` and list cases behave as claimed. -/
theorem C2_excel_export_char_rows :
    excel_rows [("f.txt", PyValue.str "Error: x")] =
      [("f.txt", "E"), ("f.txt", "r"), ("f.txt", "r"), ("f.txt", "o"),
       ("f.txt", "r"), ("f.txt", ":"), ("f.txt", " "), ("f.txt", "x")] ∧
    (excel_rows [("f.txt", PyValue.str "Error: x")]).length = 8 ∧
    excel_rows [("f.txt", PyValue.str "None")] = [("f.txt", "None")] ∧
    excel_rows [("/x/a.txt", PyValue.list ["loc1", "loc2"])] =
      [("/x/a.txt", "loc1"), ("/x/a.txt", "loc2")] := by
  refine ⟨by decide, by decide, by decide, by decide⟩

/-- Claim C4 (code evidence for the code_bug): every request the run
actually issues carries the blanket client-level `Timeout(300.0)`; the
granular per-file timeout (connect 10 / read 120 / write clamp(60+3·MB,
60, 600) / pool 5) is computed but never passed to `client.post`, and for a
100 MB file it differs from the blanket value.  The concrete run over one
100 MB file issues exactly one request, with the blanket timeout. -/
theorem C4_blanket_timeout_used (cfg : Config) (o : Oracle)
    (tree : List (String × List String)) (q : IssuedRequest)
    (hq : q ∈ (process_files cfg o tree).issued) :
    q.timeout = client_timeout ∧
    computed_timeout 100 = ⟨10, 120, 360, 5⟩ ∧
    computed_timeout 100 ≠ client_timeout ∧
    (process_files c4_cfg c4_oracle c4_tree).issued =
      [⟨request_url, "N:\\scan\\big.bin", client_timeout⟩] := by
  refine ⟨process_files_issued_blanket cfg o tree q hq, ?_, ?_, by decide⟩
  · unfold computed_timeout
    norm_num
  · intro h
    have hc := congrArg HttpxTimeout.connect h
    norm_num [computed_timeout, client_timeout] at hc

theorem C4_blanket_timeout_used_witness :
    (⟨request_url, "N:\\scan\\big.bin", client_timeout⟩ : IssuedRequest).timeout
        = client_timeout ∧
    computed_timeout 100 = ⟨10, 120, 360, 5⟩ ∧
    computed_timeout 100 ≠ client_timeout ∧
    (process_files c4_cfg c4_oracle c4_tree).issued =
      [⟨request_url, "N:\\scan\\big.bin", client_timeout⟩] :=
  C4_blanket_timeout_used c4_cfg c4_oracle c4_tree _ (by decide)

/-- Claim C5 (code evidence for the code_bug): two runs over the same tree
with the same remote responses, differing only in `only_missing_files`,
record different ResultMaps — with the flag set the rewriting loop (prefix,
backslash conversion, source exclusion) is skipped entirely and the raw
server-relative location is recorded. -/
theorem C5_flag_changes_recorded_results :
    (process_files c5_cfg_off c5_oracle c5_tree).results =
      [("N:\\scan\\a.txt", PyValue.list ["N:\\PPDO\\Records\\a\\b"])] ∧
    (process_files c5_cfg_on c5_oracle c5_tree).results =
      [("N:\\scan\\a.txt", PyValue.list ["a/b"])] ∧
    (process_files c5_cfg_off c5_oracle c5_tree).results ≠
      (process_files c5_cfg_on c5_oracle c5_tree).results := by
  refine ⟨by decide, by decide, by decide⟩

/-- Claim C6 (code evidence for the code_bug): with `exclude_src` set, when
the entry equal to the source path sits at position 0 of a 2-element
location list, the in-place `del` during `for i in range(len(...))` raises
`IndexError` at the last index and the file's outcome becomes Failed —
whereas the pure filter of the claim would yield the one remaining rewritten
location. -/
theorem C6_exclude_src_inplace_deletion :
    (process_files c6_cfg c6_oracle c6_tree).results =
      [("N:\\PPDO\\Records\\proj\\a.txt",
        PyValue.str "Error: list index out of range")] ∧
    spec_exclude_filter "N:\\PPDO\\Records\\proj\\a.txt"
        ["proj/a.txt", "proj/b.txt"] =
      ["N:\\PPDO\\Records\\proj\\b.txt"] ∧
    Event.error "Error processing file a.txt: list index out of range" ∈
      (process_files c6_cfg c6_oracle c6_tree).events := by
  refine ⟨by decide, by decide, by decide⟩

/-- Claim C7 counterexample: a run over two files whose second file fails
(transport error) ends by normal traversal completion with emitted progress
sequence `[0, 50]` — the final emitted value is 50, not 100, because the
progress counter is not advanced for failed (or skipped) files. -/
theorem C7_counterexample_failed_file_progress :
    progress_values (process_files c7_cfg c7_oracle c7_tree).events = [0, 50] ∧
    (process_files c7_cfg c7_oracle c7_tree).terminal = Terminal.completed ∧
    (progress_values (process_files c7_cfg c7_oracle c7_tree).events).getLast?
      = some 50 := by
  refine ⟨by decide, by decide, by decide⟩

/-- Claim C10 (confirmed): when the JSON export raises in "json and excel"
mode, `save_results` emits exactly one error event, never attempts the Excel
export, passes the `results` dict through untouched (for every call), and the
run still emits the final "Search complete." status right after the single
error event. -/
theorem C10_export_error_isolation (cfg : Config) (o : Oracle)
    (tree : List (String × List String)) (e : String)
    (hstop : ∀ n, o.stop n = false)
    (htot : find_file_count_loop cfg.recursive tree ≠ 0)
    (hmode : cfg.output_type = "json and excel")
    (hjson : o.jsonExportResult = Except.error e) :
    (∀ (cf : Config) (o2 : Oracle) (res : List (String × PyValue)),
      (save_results cf o2 res).resultsOut = res) ∧
    ∃ pre R,
      (process_files cfg o tree).save =
        some ⟨[Event.error ("Error: Can\x27t export file to requested location. " ++ e ++ ".")],
          true, false, R⟩ ∧
      (process_files cfg o tree).results = R ∧
      (process_files cfg o tree).events = pre ++
        [Event.error ("Error: Can\x27t export file to requested location. " ++ e ++ "."),
         Event.finished "<br><b>Search complete.</b>"] := by
  constructor
  · intro cf o2 res
    simp only [save_results]
    repeat' split
    all_goals rfl
  · obtain ⟨st, hp, heq⟩ := process_files_completed_spec cfg o tree hstop htot
    have hsave : save_results cfg o st.results =
        ⟨[Event.error ("Error: Can\x27t export file to requested location. " ++ e ++ ".")],
          true, false, st.results⟩ := by
      simp only [save_results, hmode, hjson]
      rw [if_pos (by decide)]
    refine ⟨st.events, st.results, ?_, ?_, ?_⟩
    · rw [heq]
      simp only [hsave]
    · rw [heq]
      simp only [hsave]
    · rw [heq]
      simp only [hsave]
      simp [List.append_assoc]

theorem C10_export_error_isolation_witness :
    (∀ (cf : Config) (o2 : Oracle) (res : List (String × PyValue)),
      (save_results cf o2 res).resultsOut = res) ∧
    ∃ pre R,
      (process_files c10_cfg c10_oracle c10_tree).save =
        some ⟨[Event.error ("Error: Can\x27t export file to requested location. Permission denied.")],
          true, false, R⟩ ∧
      (process_files c10_cfg c10_oracle c10_tree).results = R ∧
      (process_files c10_cfg c10_oracle c10_tree).events = pre ++
        [Event.error ("Error: Can\x27t export file to requested location. Permission denied."),
         Event.finished "<br><b>Search complete.</b>"] :=
  C10_export_error_isolation c10_cfg c10_oracle c10_tree "Permission denied"
    (fun _ => rfl) (by decide) rfl rfl

theorem range'_one_concat (s n : Nat) :
    List.range' s (n + 1) = List.range' s n ++ [s + n] := by
  have h : List.range' s (n + 1) 1 = List.range' s n 1 ++ [s + 1 * n] :=
    List.range'_concat s n
  simpa using h

theorem range'_one_succ (s n : Nat) :
    List.range' s (n + 1) = s :: List.range' (s + 1) n :=
  List.range'_succ s n 1

/-- With a non-zero total, every progress value emitted for a processed file
is at least 1. -/
theorem update_progress_pos (c total : Nat) (htot : total ≠ 0) :
    1 ≤ update_progress c total := by
  unfold update_progress
  rw [if_neg htot]
  dsimp only
  by_cases h : c * 100 / total = 0
  · rw [if_pos h]
  · rw [if_neg h]
    exact Nat.one_le_iff_ne_zero.mpr h

theorem update_progress_mono (total : Nat) {c d : Nat} (h : c ≤ d) :
    update_progress c total ≤ update_progress d total := by
  unfold update_progress
  by_cases htot : total = 0
  · rw [if_pos htot, if_pos htot]
  · rw [if_neg htot, if_neg htot]
    dsimp only
    have hdiv : c * 100 / total ≤ d * 100 / total :=
      Nat.div_le_div_right (Nat.mul_le_mul_right 100 h)
    by_cases hc : c * 100 / total = 0
    · rw [if_pos hc]
      by_cases hd : d * 100 / total = 0
      · rw [if_pos hd]
      · rw [if_neg hd]
        exact Nat.one_le_iff_ne_zero.mpr hd
    · rw [if_neg hc]
      have hd : ¬ d * 100 / total = 0 := fun h0 =>
        hc (Nat.le_zero.mp (by rw [h0] at hdiv; exact hdiv))
      rw [if_neg hd]
      exact hdiv

theorem chain_le_range'_map (f : Nat → Nat) (hf : ∀ a b, a ≤ b → f a ≤ f b) :
    ∀ (k s : Nat), List.Chain' (· ≤ ·) ((List.range' s k).map f) := by
  intro k
  induction k with
  | zero => intro s; simp
  | succ n ih =>
    intro s
    rw [range'_one_succ, List.map_cons]
    cases n with
    | zero => simp
    | succ m =>
      rw [range'_one_succ, List.map_cons, List.chain'_cons]
      constructor
      · exact hf s (s + 1) (by omega)
      · have h2 := ih (s + 1)
        rw [range'_one_succ, List.map_cons] at h2
        exact h2

theorem chain_le_zero_cons (l : List Nat) (h : List.Chain' (· ≤ ·) l) :
    List.Chain' (· ≤ ·) (0 :: l) := by
  cases l with
  | nil => simp
  | cons a t =>
    rw [List.chain'_cons]
    exact ⟨Nat.zero_le a, h⟩

/-- `save_results` never emits progress events. -/
theorem save_results_no_progress (cfg : Config) (o : Oracle)
    (res : List (String × PyValue)) :
    progress_values (save_results cfg o res).events = [] := by
  simp only [save_results]
  repeat' split
  all_goals rfl

/-- `save_results` returns the `results` dict untouched in every branch. -/
theorem save_results_results_out (cfg : Config) (o : Oracle)
    (res : List (String × PyValue)) :
    (save_results cfg o res).resultsOut = res := by
  simp only [save_results]
  repeat' split
  all_goals rfl

/-- Progress characterization of the file loop under a never-set stop flag:
the counter advances by some `k` and exactly the corresponding progress
values are emitted, in counter order. -/
theorem process_dir_files_progress (cfg : Config) (o : Oracle) (total : Nat)
    (root : String) (hstop : ∀ n, o.stop n = false) :
    ∀ (files : List String) (st : LoopState), ∃ k,
      (process_dir_files cfg o total root files st).1.counter = st.counter + k ∧
      progress_values (process_dir_files cfg o total root files st).1.events =
        progress_values st.events ++
          (List.range' (st.counter + 1) k).map (fun c => update_progress c total) := by
  intro files
  induction files with
  | nil => intro st; exact ⟨0, rfl, by simp [process_dir_files]⟩
  | cons f rest ih =>
    intro st
    simp only [process_dir_files, hstop, Bool.false_eq_true, if_false]
    by_cases hf : ignore_file f = true
    · rw [if_pos hf]
      exact ih { st with checks := st.checks + 1 }
    · rw [if_neg hf]
      obtain ⟨kk, vv, new, _, _, hev, _, hcnt, _, _⟩ :=
        process_one_file_spec cfg o total root f { st with checks := st.checks + 1 }
      obtain ⟨k2, hc2, hp2⟩ := ih
        (process_one_file cfg o total root f { st with checks := st.checks + 1 })
      dsimp only at hev hcnt
      rcases hcnt with ⟨hc, hpv⟩ | ⟨hc, hpv⟩
      · refine ⟨k2, ?_, ?_⟩
        · rw [hc2, hc]
        · rw [hp2, hev, progress_values_append, hpv, hc]
          simp
      · refine ⟨k2 + 1, ?_, ?_⟩
        · rw [hc2, hc]
          omega
        · rw [hp2, hev, progress_values_append, hpv, hc]
          rw [range'_one_succ, List.map_cons]
          simp [List.append_assoc]

/-- Progress characterization of the directory loop under a never-set stop
flag. -/
theorem process_dirs_progress (cfg : Config) (o : Oracle) (total : Nat)
    (hstop : ∀ n, o.stop n = false) :
    ∀ (dirs : List (String × List String)) (st : LoopState), ∃ k,
      (process_dirs cfg o total dirs st).1.counter = st.counter + k ∧
      progress_values (process_dirs cfg o total dirs st).1.events =
        progress_values st.events ++
          (List.range' (st.counter + 1) k).map (fun c => update_progress c total) := by
  intro dirs
  induction dirs with
  | nil => intro st; exact ⟨0, rfl, by simp [process_dirs]⟩
  | cons d rest ih =>
    intro st
    obtain ⟨root, files⟩ := d
    simp only [process_dirs, hstop, Bool.false_eq_true, if_false]
    obtain ⟨k1, hc1, hp1⟩ := process_dir_files_progress cfg o total root hstop files
      { st with checks := st.checks + 1 }
    have hb := process_dir_files_no_cancel cfg o total root hstop files
      { st with checks := st.checks + 1 }
    rcases hfd : process_dir_files cfg o total root files
        { st with checks := st.checks + 1 } with ⟨st2, b⟩
    rw [hfd] at hb hc1 hp1
    have hb' : b = false := hb
    subst hb'
    dsimp only
    dsimp only at hc1 hp1
    by_cases hbrk : (root == cfg.path && !cfg.recursive) = true
    · rw [if_pos hbrk]
      exact ⟨k1, hc1, hp1⟩
    · rw [if_neg hbrk]
      obtain ⟨k2, hc2, hp2⟩ := ih st2
      refine ⟨k1 + k2, ?_, ?_⟩
      · rw [hc2, hc1]
        omega
      · rw [hp2, hp1, hc1]
        rw [List.append_assoc]
        congr 1
        have hr : List.range' (st.counter + 1) k1 1 ++
            List.range' (st.counter + 1 + 1 * k1) k2 1 =
            List.range' (st.counter + 1) (k2 + k1) 1 :=
          List.range'_append (st.counter + 1) k1 k2 1
        rw [← List.map_append]
        congr 1
        simp only [one_mul] at hr
        rw [show st.counter + k1 + 1 = st.counter + 1 + k1 by omega]
        rw [hr]
        congr 1
        omega

/-- The file loop advances the counter by at most the number of non-ignored
files it sees (any stop oracle). -/
theorem process_dir_files_counter_le (cfg : Config) (o : Oracle) (total : Nat)
    (root : String) :
    ∀ (files : List String) (st : LoopState),
      (process_dir_files cfg o total root files st).1.counter ≤
        st.counter + (files.filter (fun f => !ignore_file f)).length := by
  intro files
  induction files with
  | nil => intro st; simp [process_dir_files]
  | cons f rest ih =>
    intro st
    simp only [process_dir_files]
    by_cases hs : o.stop st.checks = true
    · rw [if_pos hs]
      simp [cancel_now]
    · rw [if_neg hs]
      by_cases hf : ignore_file f = true
      · rw [if_pos hf]
        have h := ih { st with checks := st.checks + 1 }
        dsimp only at h
        simpa [List.filter_cons, hf] using h
      · rw [if_neg hf]
        obtain ⟨kk, vv, new, _, _, _, _, hcnt, _, _⟩ :=
          process_one_file_spec cfg o total root f { st with checks := st.checks + 1 }
        have h := ih (process_one_file cfg o total root f { st with checks := st.checks + 1 })
        dsimp only at hcnt
        rw [List.filter_cons, if_pos (by simp [hf]), List.length_cons]
        rcases hcnt with ⟨hc, _⟩ | ⟨hc, _⟩ <;> (rw [hc] at h; omega)

/-- In recursive mode the directory loop advances the counter by at most the
pre-count of the remaining tree (any stop oracle). -/
theorem process_dirs_counter_le_rec (cfg : Config) (o : Oracle) (total : Nat)
    (hrec : cfg.recursive = true) :
    ∀ (dirs : List (String × List String)) (st : LoopState),
      (process_dirs cfg o total dirs st).1.counter ≤
        st.counter + find_file_count_loop cfg.recursive dirs := by
  intro dirs
  induction dirs with
  | nil => intro st; simp [process_dirs]
  | cons d rest ih =>
    intro st
    obtain ⟨root, files⟩ := d
    simp only [process_dirs]
    by_cases hs : o.stop st.checks = true
    · rw [if_pos hs]
      simp [cancel_now, find_file_count_loop, process_dirs]
    · rw [if_neg hs]
      have h1 := process_dir_files_counter_le cfg o total root files
        { st with checks := st.checks + 1 }
      rcases hfd : process_dir_files cfg o total root files
          { st with checks := st.checks + 1 } with ⟨st2, b⟩
      rw [hfd] at h1
      dsimp only at h1
      simp only [find_file_count_loop, hrec, Bool.not_true, Bool.false_eq_true, if_false]
      cases b with
      | true =>
        dsimp only
        omega
      | false =>
        dsimp only
        rw [if_neg (by simp [hrec])]
        have h2 := ih st2
        simp only [find_file_count_loop, hrec] at h2
        omega

/-- In non-recursive mode, with the first walked directory being the scan
root, the directory loop advances the counter by at most the pre-count (any
stop oracle). -/
theorem process_dirs_counter_le_nonrec (cfg : Config) (o : Oracle) (total : Nat)
    (hrec : cfg.recursive = false) :
    ∀ (dirs : List (String × List String)) (st : LoopState),
      (∀ hd, dirs.head? = some hd → hd.1 = cfg.path) →
      (process_dirs cfg o total dirs st).1.counter ≤
        st.counter + find_file_count_loop cfg.recursive dirs := by
  intro dirs st hroot
  cases dirs with
  | nil => simp [process_dirs]
  | cons d rest =>
    obtain ⟨root, files⟩ := d
    have hr : root = cfg.path := hroot (root, files) rfl
    simp only [process_dirs]
    by_cases hs : o.stop st.checks = true
    · rw [if_pos hs]
      simp [cancel_now, find_file_count_loop]

    · rw [if_neg hs]
      have h1 := process_dir_files_counter_le cfg o total root files
        { st with checks := st.checks + 1 }
      rcases hfd : process_dir_files cfg o total root files
          { st with checks := st.checks + 1 } with ⟨st2, b⟩
      rw [hfd] at h1
      dsimp only at h1
      simp only [find_file_count_loop, hrec, Bool.not_false, if_true]
      cases b with
      | true =>
        dsimp only
        omega
      | false =>
        dsimp only
        rw [if_pos (by simp [hr, hrec])]
        dsimp only
        omega

/-- The run's final counter never exceeds the pre-count. -/
theorem process_files_counter_le (cfg : Config) (o : Oracle)
    (tree : List (String × List String))
    (hroot : ∀ hd, tree.head? = some hd → hd.1 = cfg.path) :
    (process_files cfg o tree).counter ≤ find_file_count_loop cfg.recursive tree := by
  by_cases htot : find_file_count_loop cfg.recursive tree = 0
  · simp only [process_files]
    rw [if_pos htot]
    dsimp only
    exact Nat.zero_le _
  · simp only [process_files]
    rw [if_neg htot]
    have hle : (process_dirs cfg o (find_file_count_loop cfg.recursive tree) tree
        (init_state (find_file_count_loop cfg.recursive tree))).1.counter ≤
        (init_state (find_file_count_loop cfg.recursive tree)).counter +
          find_file_count_loop cfg.recursive tree := by
      cases hrec : cfg.recursive with
      | true =>
        have h := process_dirs_counter_le_rec cfg o
          (find_file_count_loop cfg.recursive tree) hrec tree
          (init_state (find_file_count_loop cfg.recursive tree))
        rw [hrec] at h
        exact h
      | false =>
        have h := process_dirs_counter_le_nonrec cfg o
          (find_file_count_loop cfg.recursive tree) hrec tree
          (init_state (find_file_count_loop cfg.recursive tree)) hroot
        rw [hrec] at h
        exact h
    rcases hp : process_dirs cfg o (find_file_count_loop cfg.recursive tree) tree
        (init_state (find_file_count_loop cfg.recursive tree)) with ⟨st, b⟩
    rw [hp] at hle
    simp only [init_state] at hle
    cases b with
    | true => exact by simpa using hle
    | false => exact by simpa using hle

/-- Claim C7 (amended): for a run with a never-set stop flag, a non-zero
pre-count and a walk starting at the scan root, the emitted progress sequence
is exactly the initial 0 followed by the clamped percentages of the
successive success counts; it is non-decreasing, every value after the
initial 0 is at least 1, and the final emitted value is 100 exactly when the
success counter reached the pre-count total — skipped and failed files do
not advance it. -/
theorem C7_amended_progress (cfg : Config) (o : Oracle)
    (tree : List (String × List String))
    (hstop : ∀ n, o.stop n = false)
    (htot : find_file_count_loop cfg.recursive tree ≠ 0)
    (hroot : ∀ hd, tree.head? = some hd → hd.1 = cfg.path) :
    progress_values (process_files cfg o tree).events =
      0 :: (List.range' 1 (process_files cfg o tree).counter).map
        (fun c => update_progress c (find_file_count_loop cfg.recursive tree)) ∧
    List.Chain' (· ≤ ·) (progress_values (process_files cfg o tree).events) ∧
    (∀ v ∈ (progress_values (process_files cfg o tree).events).tail, 1 ≤ v) ∧
    ((progress_values (process_files cfg o tree).events).getLast? = some 100 ↔
      (process_files cfg o tree).counter = find_file_count_loop cfg.recursive tree) := by
  have hcle := process_files_counter_le cfg o tree hroot
  obtain ⟨st, hp, heq⟩ := process_files_completed_spec cfg o tree hstop htot
  obtain ⟨k, hck, hpk⟩ := process_dirs_progress cfg o
    (find_file_count_loop cfg.recursive tree) hstop tree
    (init_state (find_file_count_loop cfg.recursive tree))
  rw [hp] at hck hpk
  dsimp only at hck hpk
  simp only [init_state] at hck hpk
  have hck' : st.counter = k := by omega
  have hpinit : progress_values (init_events (find_file_count_loop cfg.recursive tree)) = [0] := rfl
  rw [hpinit] at hpk
  have hpv : progress_values (process_files cfg o tree).events =
      0 :: (List.range' 1 st.counter).map
        (fun c => update_progress c (find_file_count_loop cfg.recursive tree)) := by
    rw [heq]
    dsimp only
    rw [progress_values_append, progress_values_append, save_results_no_progress]
    rw [show progress_values [Event.finished "<br><b>Search complete.</b>"] = [] from rfl]
    rw [hpk, hck']
    simp
  have hcounter : (process_files cfg o tree).counter = st.counter := by
    rw [heq]
  rw [hcounter] at hcle
  refine ⟨by rw [hpv, hcounter], ?_, ?_, ?_⟩
  · rw [hpv]
    exact chain_le_zero_cons _ (chain_le_range'_map _
      (fun a b hab => update_progress_mono _ hab) _ _)
  · rw [hpv]
    intro v hv
    dsimp only [List.tail] at hv
    rw [List.mem_map] at hv
    obtain ⟨c, _, hc⟩ := hv
    rw [← hc]
    exact update_progress_pos c _ htot
  · rw [hpv, hcounter]
    cases hk : st.counter with
    | zero =>
      simp only [hk, List.range', List.map_nil]
      constructor
      · intro h
        simp at h
      · intro h
        rw [← h] at htot
        exact absurd rfl htot
    | succ m =>
      have hlast : (0 :: (List.range' 1 (m + 1)).map
          (fun c => update_progress c (find_file_count_loop cfg.recursive tree))).getLast?
          = some (update_progress (m + 1) (find_file_count_loop cfg.recursive tree)) := by
        rw [range'_one_concat, List.map_append]
        simp only [List.map_cons, List.map_nil]
        rw [show (0 : Nat) :: ((List.range' 1 m).map
            (fun c => update_progress c (find_file_count_loop cfg.recursive tree)) ++
            [update_progress (1 + m) (find_file_count_loop cfg.recursive tree)]) =
          ((0 : Nat) :: (List.range' 1 m).map
            (fun c => update_progress c (find_file_count_loop cfg.recursive tree))) ++
            [update_progress (1 + m) (find_file_count_loop cfg.recursive tree)] from rfl]
        rw [List.getLast?_concat]
        rw [show 1 + m = m + 1 by omega]
      rw [hlast]
      have hk1 : 1 ≤ m + 1 := by omega
      have hkle : m + 1 ≤ find_file_count_loop cfg.recursive tree := by
        rw [← hk]; exact hcle
      have key : update_progress (m + 1) (find_file_count_loop cfg.recursive tree) = 100 ↔
          m + 1 = find_file_count_loop cfg.recursive tree := by
        unfold update_progress
        rw [if_neg htot]
        dsimp only
        constructor
        · intro h
          by_cases h0 : (m + 1) * 100 / find_file_count_loop cfg.recursive tree = 0
          · rw [if_pos h0] at h
            omega
          · rw [if_neg h0] at h
            have h100 : 100 ≤ (m + 1) * 100 / find_file_count_loop cfg.recursive tree := by
              omega
            have hmul : 100 * find_file_count_loop cfg.recursive tree ≤ (m + 1) * 100 :=
              (Nat.le_div_iff_mul_le (Nat.pos_of_ne_zero htot)).mp h100
            have : find_file_count_loop cfg.recursive tree ≤ m + 1 := by
              have h2 : 100 * find_file_count_loop cfg.recursive tree ≤ 100 * (m + 1) := by
                omega
              exact Nat.le_of_mul_le_mul_left h2 (by omega)
            omega
        · intro h
          rw [h]
          have hdiv : find_file_count_loop cfg.recursive tree * 100 /
              find_file_count_loop cfg.recursive tree = 100 :=
            Nat.mul_div_cancel_left 100 (Nat.pos_of_ne_zero htot)
          rw [hdiv]
          rw [if_neg (by omega)]
      rw [Option.some_inj]
      rw [← hk]
      rw [hk]
      exact key

theorem C7_amended_progress_witness :
    progress_values (process_files c1_cfg c1_oracle c1_tree).events =
      0 :: (List.range' 1 (process_files c1_cfg c1_oracle c1_tree).counter).map
        (fun c => update_progress c (find_file_count_loop c1_cfg.recursive c1_tree)) ∧
    List.Chain' (· ≤ ·) (progress_values (process_files c1_cfg c1_oracle c1_tree).events) ∧
    (∀ v ∈ (progress_values (process_files c1_cfg c1_oracle c1_tree).events).tail, 1 ≤ v) ∧
    ((progress_values (process_files c1_cfg c1_oracle c1_tree).events).getLast? = some 100 ↔
      (process_files c1_cfg c1_oracle c1_tree).counter =
        find_file_count_loop c1_cfg.recursive c1_tree) :=
  C7_amended_progress c1_cfg c1_oracle c1_tree (fun _ => rfl) (by decide)
    (by
      intro hd h
      have h2 : some (("N:\\scan", ["a.txt", "b.txt", "c.txt"]) :
          String × List String) = some hd := h
      injection h2 with h3
      rw [← h3]
      rfl)

/-! ## Result-map accounting -/

theorem walk_paths_cons (root : String) (files : List String)
    (rest : List (String × List String)) :
    walk_paths ((root, files) :: rest) =
      files.map (os_path_join root) ++ walk_paths rest := rfl

theorem os_path_join_right_inj (root : String) {a b : String}
    (h : os_path_join root a = os_path_join root b) : a = b := by
  have hd : (os_path_join root a).data = (os_path_join root b).data := by rw [h]
  unfold os_path_join at hd
  rw [String.data_append, String.data_append, String.data_append,
    String.data_append] at hd
  have h2 : a.data = b.data := List.append_cancel_left hd
  cases a
  cases b
  exact congrArg String.mk h2

/-- Under a never-set stop flag and fresh, duplicate-free, slash-free paths,
the file loop appends exactly one results entry per non-ignored file, keyed
by its joined path, in traversal order. -/
theorem process_dir_files_results (cfg : Config) (o : Oracle) (total : Nat)
    (root : String) (hstop : ∀ n, o.stop n = false) :
    ∀ (files : List String) (st : LoopState),
      (∀ f ∈ files, ∀ p ∈ st.results, p.1 ≠ os_path_join root f) →
      ((files.filter (fun f => !ignore_file f)).map (os_path_join root)).Nodup →
      (∀ f ∈ files, ¬ '/' ∈ (os_path_join root f).data) →
      ∃ ents,
        (process_dir_files cfg o total root files st).1.results = st.results ++ ents ∧
        ents.map Prod.fst = (files.filter (fun f => !ignore_file f)).map (os_path_join root) := by
  intro files
  induction files with
  | nil =>
    intro st _ _ _
    exact ⟨[], by simp [process_dir_files], by simp⟩
  | cons f rest ih =>
    intro st hfresh hnodup hslash
    simp only [process_dir_files, hstop, Bool.false_eq_true, if_false]
    by_cases hf : ignore_file f = true
    · rw [if_pos hf]
      have hfilter : (f :: rest).filter (fun f => !ignore_file f) =
          rest.filter (fun f => !ignore_file f) := by
        simp [List.filter_cons, hf]
      rw [hfilter] at hnodup ⊢
      exact ih { st with checks := st.checks + 1 }
        (fun g hg p hp => hfresh g (List.mem_cons_of_mem f hg) p hp)
        hnodup
        (fun g hg => hslash g (List.mem_cons_of_mem f hg))
    · rw [if_neg hf]
      have hfilter : (f :: rest).filter (fun f => !ignore_file f) =
          f :: rest.filter (fun f => !ignore_file f) := by
        simp [List.filter_cons, hf]
      rw [hfilter] at hnodup ⊢
      rw [List.map_cons] at hnodup ⊢
      rw [List.nodup_cons] at hnodup
      obtain ⟨hnotmem, hnodup'⟩ := hnodup
      obtain ⟨kk, vv, new, hkor, hres, _, _, _, _, _⟩ :=
        process_one_file_spec cfg o total root f { st with checks := st.checks + 1 }
      dsimp only at hres
      have hkk : kk = os_path_join root f := by
        rcases hkor with h | h
        · exact h
        · rw [h]
          exact py_replace_slash_eq_self _ (hslash f (List.mem_cons_self f rest))
      rw [hkk] at hres
      have hset : dict_set st.results (os_path_join root f) vv =
          st.results ++ [(os_path_join root f, vv)] :=
        dict_set_fresh st.results (os_path_join root f) vv
          (fun p hp => hfresh f (List.mem_cons_self f rest) p hp)
      rw [hset] at hres
      obtain ⟨ents, hents, hkeys⟩ := ih
        (process_one_file cfg o total root f { st with checks := st.checks + 1 })
        (by
          intro g hg p hp
          rw [hres] at hp
          rw [List.mem_append] at hp
          rcases hp with hp | hp
          · exact hfresh g (List.mem_cons_of_mem f hg) p hp
          · rw [List.mem_singleton] at hp
            subst hp
            dsimp only
            intro hcontra
            by_cases hgig : ignore_file g = true
            · have hfg : f = g := os_path_join_right_inj root hcontra
              rw [hfg] at hf
              exact hf hgig
            · apply hnotmem
              rw [hcontra]
              exact List.mem_map_of_mem (os_path_join root)
                (List.mem_filter.mpr ⟨hg, by simp [hgig]⟩))
        hnodup'
        (fun g hg => hslash g (List.mem_cons_of_mem f hg))
      refine ⟨(os_path_join root f, vv) :: ents, ?_, ?_⟩
      · rw [hents, hres, List.append_assoc]
        rfl
      · rw [List.map_cons, hkeys]

/-- In recursive mode, under a never-set stop flag and fresh,
duplicate-free, slash-free walk paths, the directory loop appends exactly
`find_file_count_loop` entries to the results dict. -/
theorem process_dirs_results_rec (cfg : Config) (o : Oracle) (total : Nat)
    (hstop : ∀ n, o.stop n = false) (hrec : cfg.recursive = true) :
    ∀ (dirs : List (String × List String)) (st : LoopState),
      (∀ p ∈ st.results, ∀ q ∈ walk_paths dirs, p.1 ≠ q) →
      (walk_paths dirs).Nodup →
      (∀ q ∈ walk_paths dirs, ¬ '/' ∈ q.data) →
      ∃ ents,
        (process_dirs cfg o total dirs st).1.results = st.results ++ ents ∧
        ents.length = find_file_count_loop cfg.recursive dirs := by
  intro dirs
  induction dirs with
  | nil =>
    intro st _ _ _
    exact ⟨[], by simp [process_dirs], by simp [find_file_count_loop]⟩
  | cons d rest ih =>
    intro st hfresh hnodup hslash
    obtain ⟨root, files⟩ := d
    rw [walk_paths_cons] at hfresh hnodup hslash
    rw [List.nodup_append] at hnodup
    obtain ⟨hnodup1, hnodup2, hdisj⟩ := hnodup
    simp only [process_dirs, hstop, Bool.false_eq_true, if_false]
    obtain ⟨ents1, hents1, hkeys1⟩ := process_dir_files_results cfg o total root hstop files
      { st with checks := st.checks + 1 }
      (fun g hg p hp => hfresh p hp (os_path_join root g)
        (List.mem_append_left _ (List.mem_map_of_mem _ hg)))
      (List.Nodup.sublist ((List.filter_sublist files).map (os_path_join root)) hnodup1)
      (fun g hg => hslash (os_path_join root g)
        (List.mem_append_left _ (List.mem_map_of_mem _ hg)))
    have hb := process_dir_files_no_cancel cfg o total root hstop files
      { st with checks := st.checks + 1 }
    rcases hfd : process_dir_files cfg o total root files
        { st with checks := st.checks + 1 } with ⟨st2, b⟩
    rw [hfd] at hb hents1
    have hb' : b = false := hb
    subst hb'
    dsimp only at hents1 ⊢
    rw [if_neg (by simp [hrec])]
    obtain ⟨ents2, hents2, hlen2⟩ := ih st2
      (by
        intro p hp q hq
        rw [hents1] at hp
        rw [List.mem_append] at hp
        rcases hp with hp | hp
        · exact hfresh p hp q (List.mem_append_right _ hq)
        · have hp1 : p.1 ∈ (files.filter (fun f => !ignore_file f)).map
              (os_path_join root) := by
            rw [← hkeys1]
            exact List.mem_map_of_mem _ hp
          have hp2 : p.1 ∈ files.map (os_path_join root) :=
            List.Sublist.mem hp1
              ((List.filter_sublist files).map (os_path_join root))
          intro hcontra
          exact hdisj hp2 (hcontra ▸ hq))
      hnodup2
      (fun q hq => hslash q (List.mem_append_right _ hq))
    refine ⟨ents1 ++ ents2, ?_, ?_⟩
    · rw [hents2, hents1, List.append_assoc]
    · rw [List.length_append]
      have hl1 : ents1.length = (files.filter (fun f => !ignore_file f)).length := by
        have := congrArg List.length hkeys1
        simpa using this
      simp only [find_file_count_loop, hrec]
      rw [if_neg (by simp)]
      rw [hrec] at hlen2
      omega

/-- In non-recursive mode, with the walk starting at the scan root, the
directory loop processes exactly the root directory's files and appends one
entry per non-ignored file. -/
theorem process_dirs_results_nonrec (cfg : Config) (o : Oracle) (total : Nat)
    (hstop : ∀ n, o.stop n = false) (hrec : cfg.recursive = false) :
    ∀ (dirs : List (String × List String)) (st : LoopState),
      (∀ hd, dirs.head? = some hd → hd.1 = cfg.path) →
      (∀ p ∈ st.results, ∀ q ∈ walk_paths dirs, p.1 ≠ q) →
      (walk_paths dirs).Nodup →
      (∀ q ∈ walk_paths dirs, ¬ '/' ∈ q.data) →
      ∃ ents,
        (process_dirs cfg o total dirs st).1.results = st.results ++ ents ∧
        ents.length = find_file_count_loop cfg.recursive dirs := by
  intro dirs st hroot hfresh hnodup hslash
  cases dirs with
  | nil => exact ⟨[], by simp [process_dirs], by simp [find_file_count_loop]⟩
  | cons d rest =>
    obtain ⟨root, files⟩ := d
    have hr : root = cfg.path := hroot (root, files) rfl
    rw [walk_paths_cons] at hfresh hnodup hslash
    rw [List.nodup_append] at hnodup
    obtain ⟨hnodup1, _, _⟩ := hnodup
    simp only [process_dirs, hstop, Bool.false_eq_true, if_false]
    obtain ⟨ents1, hents1, hkeys1⟩ := process_dir_files_results cfg o total root hstop files
      { st with checks := st.checks + 1 }
      (fun g hg p hp => hfresh p hp (os_path_join root g)
        (List.mem_append_left _ (List.mem_map_of_mem _ hg)))
      (List.Nodup.sublist ((List.filter_sublist files).map (os_path_join root)) hnodup1)
      (fun g hg => hslash (os_path_join root g)
        (List.mem_append_left _ (List.mem_map_of_mem _ hg)))
    have hb := process_dir_files_no_cancel cfg o total root hstop files
      { st with checks := st.checks + 1 }
    rcases hfd : process_dir_files cfg o total root files
        { st with checks := st.checks + 1 } with ⟨st2, b⟩
    rw [hfd] at hb hents1
    have hb' : b = false := hb
    subst hb'
    dsimp only at hents1 ⊢
    rw [if_pos (by simp [hr, hrec])]
    refine ⟨ents1, hents1, ?_⟩
    have hl1 : ents1.length = (files.filter (fun f => !ignore_file f)).length := by
      have := congrArg List.length hkeys1
      simpa using this
    simp only [find_file_count_loop, hrec]
    rw [if_pos (by simp)]
    exact hl1

/-- Claim C8 (confirmed): for a run with a never-set stop flag over a walk
whose file paths are pairwise distinct and slash-free (true of any real
directory tree on the Windows deployment platform) and whose first directory
is the scan root, the number of results entries after completion equals the
pre-count total — both passes applying the same ignore policy and recursion
cutoff, and every non-ignored enumerated file receiving exactly one entry. -/
theorem C8_result_count_equals_precount (cfg : Config) (o : Oracle)
    (tree : List (String × List String))
    (hstop : ∀ n, o.stop n = false)
    (hroot : ∀ hd, tree.head? = some hd → hd.1 = cfg.path)
    (hnodup : (walk_paths tree).Nodup)
    (hslash : ∀ q ∈ walk_paths tree, ¬ '/' ∈ q.data) :
    (process_files cfg o tree).results.length =
      find_file_count_loop cfg.recursive tree := by
  by_cases htot : find_file_count_loop cfg.recursive tree = 0
  · simp only [process_files]
    rw [if_pos htot]
    dsimp only
    rw [htot]
    rfl
  · obtain ⟨st, hp, heq⟩ := process_files_completed_spec cfg o tree hstop htot
    have hents : ∃ ents,
        (process_dirs cfg o (find_file_count_loop cfg.recursive tree) tree
          (init_state (find_file_count_loop cfg.recursive tree))).1.results =
          (init_state (find_file_count_loop cfg.recursive tree)).results ++ ents ∧
        ents.length = find_file_count_loop cfg.recursive tree := by
      cases hrec : cfg.recursive with
      | true =>
        have h := process_dirs_results_rec cfg o
          (find_file_count_loop cfg.recursive tree) hstop hrec tree
          (init_state (find_file_count_loop cfg.recursive tree))
          (by intro p hp; simp [init_state] at hp)
          hnodup hslash
        rw [hrec] at h
        exact h
      | false =>
        have h := process_dirs_results_nonrec cfg o
          (find_file_count_loop cfg.recursive tree) hstop hrec tree
          (init_state (find_file_count_loop cfg.recursive tree)) hroot
          (by intro p hp; simp [init_state] at hp)
          hnodup hslash
        rw [hrec] at h
        exact h
    obtain ⟨ents, hents, hlen⟩ := hents
    rw [hp] at hents
    dsimp only at hents
    rw [heq]
    dsimp only
    rw [save_results_results_out, hents]
    simp only [init_state, List.nil_append]
    rw [hlen]

theorem C8_result_count_equals_precount_witness :
    (process_files c8_cfg c8_oracle c8_tree).results.length =
      find_file_count_loop c8_cfg.recursive c8_tree :=
  C8_result_count_equals_precount c8_cfg c8_oracle c8_tree (fun _ => rfl)
    (by
      intro hd h
      have h2 : some (("N:\\scan", ["a.txt", "Thumbs.db"]) :
          String × List String) = some hd := h
      injection h2 with h3
      rw [← h3]
      rfl)
    (by decide)
    (by decide)

/-! ## Cancellation -/

/-- Processing one file does not read the stop flag, so it cannot tell the
two oracles apart. -/
theorem process_one_file_no_stop (cfg : Config) (o : Oracle) (total : Nat)
    (root f : String) (st : LoopState) :
    process_one_file cfg (no_stop_oracle o) total root f st =
      process_one_file cfg o total root f st := rfl

/-- If the file loop did not cancel, every stop read was false, so the run
with the never-set flag behaves identically. -/
theorem process_dir_files_no_cancel_eq (cfg : Config) (o : Oracle)
    (total : Nat) (root : String) :
    ∀ (files : List String) (st : LoopState),
      (process_dir_files cfg o total root files st).2 = false →
      process_dir_files cfg (no_stop_oracle o) total root files st =
        process_dir_files cfg o total root files st := by
  intro files
  induction files with
  | nil => intro st _; rfl
  | cons f rest ih =>
    intro st h
    simp only [process_dir_files] at h ⊢
    by_cases hs : o.stop st.checks = true
    · rw [if_pos hs] at h
      exact absurd h (by simp)
    · rw [if_neg hs] at h ⊢
      rw [show (no_stop_oracle o).stop st.checks = false from rfl]
      simp only [Bool.false_eq_true, if_false]
      by_cases hf : ignore_file f = true
      · simp only [hf, if_true] at h ⊢
        exact ih _ h
      · simp only [hf, Bool.false_eq_true, if_false] at h ⊢
        rw [process_one_file_no_stop]
        exact ih _ h

/-- If the directory loop did not cancel, the run with the never-set flag
behaves identically. -/
theorem process_dirs_no_cancel_eq (cfg : Config) (o : Oracle) (total : Nat) :
    ∀ (dirs : List (String × List String)) (st : LoopState),
      (process_dirs cfg o total dirs st).2 = false →
      process_dirs cfg (no_stop_oracle o) total dirs st =
        process_dirs cfg o total dirs st := by
  intro dirs
  induction dirs with
  | nil => intro st _; rfl
  | cons d rest ih =>
    intro st h
    obtain ⟨root, files⟩ := d
    simp only [process_dirs] at h ⊢
    by_cases hs : o.stop st.checks = true
    · rw [if_pos hs] at h
      exact absurd h (by simp)
    · rw [if_neg hs] at h ⊢
      rw [show (no_stop_oracle o).stop st.checks = false from rfl]
      simp only [Bool.false_eq_true, if_false]
      rcases hfd : process_dir_files cfg o total root files
          { st with checks := st.checks + 1 } with ⟨st2, b⟩
      rw [hfd] at h
      cases b with
      | true => exact absurd h (by simp)
      | false =>
        have heq := process_dir_files_no_cancel_eq cfg o total root files
          { st with checks := st.checks + 1 }
          (by rw [hfd])
        rw [heq, hfd]
        dsimp only at h ⊢
        by_cases hbrk : (root == cfg.path && !cfg.recursive) = true
        · rw [if_pos hbrk, if_pos hbrk]
        · rw [if_neg hbrk] at h
          rw [if_neg hbrk, if_neg hbrk]
          exact ih _ h

/-- A canceled file loop's event stream ends with the canceled status
followed by the forced 100% progress. -/
theorem process_dir_files_canceled_suffix (cfg : Config) (o : Oracle)
    (total : Nat) (root : String) :
    ∀ (files : List String) (st : LoopState),
      (process_dir_files cfg o total root files st).2 = true →
      ∃ pre, (process_dir_files cfg o total root files st).1.events =
        pre ++ [Event.finished "<br><b>Process canceled.</b>", Event.progress 100] := by
  intro files
  induction files with
  | nil =>
    intro st h
    exact absurd h (by simp [process_dir_files])
  | cons f rest ih =>
    intro st h
    simp only [process_dir_files] at h ⊢
    by_cases hs : o.stop st.checks = true
    · rw [if_pos hs] at h ⊢
      exact ⟨st.events, rfl⟩
    · rw [if_neg hs] at h ⊢
      by_cases hf : ignore_file f = true
      · rw [if_pos hf] at h ⊢
        exact ih _ h
      · rw [if_neg hf] at h ⊢
        exact ih _ h

/-- A canceled directory loop's event stream ends with the canceled status
followed by the forced 100% progress. -/
theorem process_dirs_canceled_suffix (cfg : Config) (o : Oracle) (total : Nat) :
    ∀ (dirs : List (String × List String)) (st : LoopState),
      (process_dirs cfg o total dirs st).2 = true →
      ∃ pre, (process_dirs cfg o total dirs st).1.events =
        pre ++ [Event.finished "<br><b>Process canceled.</b>", Event.progress 100] := by
  intro dirs
  induction dirs with
  | nil =>
    intro st h
    exact absurd h (by simp [process_dirs])
  | cons d rest ih =>
    intro st h
    obtain ⟨root, files⟩ := d
    simp only [process_dirs] at h ⊢
    by_cases hs : o.stop st.checks = true
    · rw [if_pos hs] at h ⊢
      exact ⟨st.events, rfl⟩
    · rw [if_neg hs] at h ⊢
      rcases hfd : process_dir_files cfg o total root files
          { st with checks := st.checks + 1 } with ⟨st2, b⟩
      cases b with
      | true =>
        have hsuf := process_dir_files_canceled_suffix cfg o total root files
          { st with checks := st.checks + 1 } (by rw [hfd])
        rw [hfd] at hsuf
        exact hsuf
      | false =>
        rw [hfd] at h
        dsimp only at h ⊢
        by_cases hbrk : (root == cfg.path && !cfg.recursive) = true
        · rw [if_pos hbrk] at h
          exact absurd h (by simp)
        · rw [if_neg hbrk] at h ⊢
          exact ih _ h

/-- Any file-loop run (with any stop oracle) only appends events of the
per-file shapes or the canceled status. -/
theorem process_dir_files_events_shape (cfg : Config) (o : Oracle)
    (total : Nat) (root : String) :
    ∀ (files : List String) (st : LoopState),
      ∃ new, (process_dir_files cfg o total root files st).1.events = st.events ++ new ∧
        ∀ e ∈ new, per_file_event_shape e ∨
          e = Event.finished "<br><b>Process canceled.</b>" := by
  intro files
  induction files with
  | nil =>
    intro st
    exact ⟨[], by simp [process_dir_files], by simp⟩
  | cons f rest ih =>
    intro st
    simp only [process_dir_files]
    by_cases hs : o.stop st.checks = true
    · rw [if_pos hs]
      refine ⟨[Event.finished "<br><b>Process canceled.</b>", Event.progress 100], rfl, ?_⟩
      intro e he
      rw [List.mem_cons, List.mem_singleton] at he
      rcases he with he | he
      · exact Or.inr he
      · exact Or.inl (Or.inr (Or.inr (Or.inr (Or.inr (Or.inr ⟨100, he⟩)))))
    · rw [if_neg hs]
      by_cases hf : ignore_file f = true
      · rw [if_pos hf]
        exact ih _
      · rw [if_neg hf]
        obtain ⟨kk, vv, new1, _, _, hev, _, _, _, hshape1⟩ :=
          process_one_file_spec cfg o total root f { st with checks := st.checks + 1 }
        dsimp only at hev
        obtain ⟨new2, hev2, hshape2⟩ := ih
          (process_one_file cfg o total root f { st with checks := st.checks + 1 })
        refine ⟨new1 ++ new2, ?_, ?_⟩
        · rw [hev2, hev, List.append_assoc]
        · intro e he
          rw [List.mem_append] at he
          rcases he with he | he
          · exact Or.inl (hshape1 e he)
          · exact hshape2 e he

/-- Any directory-loop run only appends events of the per-file shapes or the
canceled status. -/
theorem process_dirs_events_shape (cfg : Config) (o : Oracle) (total : Nat) :
    ∀ (dirs : List (String × List String)) (st : LoopState),
      ∃ new, (process_dirs cfg o total dirs st).1.events = st.events ++ new ∧
        ∀ e ∈ new, per_file_event_shape e ∨
          e = Event.finished "<br><b>Process canceled.</b>" := by
  intro dirs
  induction dirs with
  | nil =>
    intro st
    exact ⟨[], by simp [process_dirs], by simp⟩
  | cons d rest ih =>
    intro st
    obtain ⟨root, files⟩ := d
    simp only [process_dirs]
    by_cases hs : o.stop st.checks = true
    · rw [if_pos hs]
      refine ⟨[Event.finished "<br><b>Process canceled.</b>", Event.progress 100], rfl, ?_⟩
      intro e he
      rw [List.mem_cons, List.mem_singleton] at he
      rcases he with he | he
      · exact Or.inr he
      · exact Or.inl (Or.inr (Or.inr (Or.inr (Or.inr (Or.inr ⟨100, he⟩)))))
    · rw [if_neg hs]
      obtain ⟨new1, hev1, hshape1⟩ := process_dir_files_events_shape cfg o total root files
        { st with checks := st.checks + 1 }
      rcases hfd : process_dir_files cfg o total root files
          { st with checks := st.checks + 1 } with ⟨st2, b⟩
      rw [hfd] at hev1
      dsimp only at hev1
      cases b with
      | true => exact ⟨new1, hev1, hshape1⟩
      | false =>
        dsimp only
        by_cases hbrk : (root == cfg.path && !cfg.recursive) = true
        · rw [if_pos hbrk]
          exact ⟨new1, hev1, hshape1⟩
        · rw [if_neg hbrk]
          obtain ⟨new2, hev2, hshape2⟩ := ih st2
          refine ⟨new1 ++ new2, ?_, ?_⟩
          · rw [hev2, hev1, List.append_assoc]
          · intro e he
            rw [List.mem_append] at he
            rcases he with he | he
            · exact hshape1 e he
            · exact hshape2 e he

/-- Two strings differ when a character inside the first's prefix part
differs from the target's character at the same index. -/
theorem append_ne_of_data_get (pre rest target : String) (i : Nat) (c : Char)
    (h1 : pre.data[i]? = some c) (h2 : ¬ target.data[i]? = some c) :
    pre ++ rest ≠ target := by
  intro he
  apply h2
  have hd : (pre ++ rest).data = target.data := by rw [he]
  rw [String.data_append] at hd
  have hi : i < pre.data.length := by
    by_contra hlt
    push_neg at hlt
    rw [List.getElem?_eq_none hlt] at h1
    exact Option.noConfusion h1
  rw [← hd, List.getElem?_append_left hi]
  exact h1

/-- No event of the shapes a running walk emits is the final
"Search complete." status. -/
theorem not_search_complete_of_shape (e : Event)
    (h : per_file_event_shape e ∨ e = Event.finished "<br><b>Process canceled.</b>") :
    e ≠ Event.finished "<br><b>Search complete.</b>" := by
  intro hc
  subst hc
  rcases h with h | h
  · rcases h with ⟨s, h⟩ | ⟨s, h⟩ | ⟨s, h⟩ | h | ⟨s, h⟩ | ⟨n, h⟩
    · injection h with h'
      exact append_ne_of_data_get "<br><b>Skipping: " s _ 8 'k'
        (by decide) (by decide) h'.symm
    · injection h with h'
      exact append_ne_of_data_get "<br><b>Locations for " s _ 7 'L'
        (by decide) (by decide) h'.symm
    · injection h with h'
      exact append_ne_of_data_get "<pre>    " s _ 1 'p'
        (by decide) (by decide) h'.symm
    · injection h with h'
      exact absurd h' (by decide)
    · exact Event.noConfusion h
    · exact Event.noConfusion h
  · injection h with h'
    exact absurd h' (by decide)

/-- Cancellation only truncates the file loop's result map: the same run
with the stop flag never set produces an extension of it. -/
theorem process_dir_files_stop_prefix (cfg : Config) (o : Oracle) (total : Nat)
    (root : String) :
    ∀ (files : List String) (st : LoopState),
      (∀ f ∈ files, ∀ p ∈ st.results, p.1 ≠ os_path_join root f) →
      ((files.filter (fun f => !ignore_file f)).map (os_path_join root)).Nodup →
      (∀ f ∈ files, ¬ '/' ∈ (os_path_join root f).data) →
      ∃ t, (process_dir_files cfg (no_stop_oracle o) total root files st).1.results =
        (process_dir_files cfg o total root files st).1.results ++ t := by
  intro files
  induction files with
  | nil => intro st _ _ _; exact ⟨[], by simp [process_dir_files]⟩
  | cons f rest ih =>
    intro st hfresh hnodup hslash
    by_cases hs : o.stop st.checks = true
    · have hcanc : (process_dir_files cfg o total root (f :: rest) st).1.results
          = st.results := by
        simp only [process_dir_files]
        rw [if_pos hs]
        rfl
      obtain ⟨ents, hents, _⟩ := process_dir_files_results cfg (no_stop_oracle o)
        total root (fun _ => rfl) (f :: rest) st hfresh hnodup hslash
      exact ⟨ents, by rw [hents, hcanc]⟩
    · simp only [process_dir_files]
      rw [show (no_stop_oracle o).stop st.checks = false from rfl]
      simp only [Bool.false_eq_true, if_false]
      rw [if_neg hs]
      by_cases hf : ignore_file f = true
      · simp only [hf, if_true]
        have hfilter : (f :: rest).filter (fun f => !ignore_file f) =
            rest.filter (fun f => !ignore_file f) := by
          simp [List.filter_cons, hf]
        rw [hfilter] at hnodup
        exact ih { st with checks := st.checks + 1 }
          (fun g hg p hp => hfresh g (List.mem_cons_of_mem f hg) p hp)
          hnodup
          (fun g hg => hslash g (List.mem_cons_of_mem f hg))
      · simp only [hf, Bool.false_eq_true, if_false]
        rw [process_one_file_no_stop]
        have hfilter : (f :: rest).filter (fun f => !ignore_file f) =
            f :: rest.filter (fun f => !ignore_file f) := by
          simp [List.filter_cons, hf]
        rw [hfilter, List.map_cons, List.nodup_cons] at hnodup
        obtain ⟨hnotmem, hnodup'⟩ := hnodup
        obtain ⟨kk, vv, new, hkor, hres, _, _, _, _, _⟩ :=
          process_one_file_spec cfg o total root f { st with checks := st.checks + 1 }
        dsimp only at hres
        have hkk : kk = os_path_join root f := by
          rcases hkor with h | h
          · exact h
          · rw [h]
            exact py_replace_slash_eq_self _ (hslash f (List.mem_cons_self f rest))
        rw [hkk] at hres
        have hset : dict_set st.results (os_path_join root f) vv =
            st.results ++ [(os_path_join root f, vv)] :=
          dict_set_fresh st.results (os_path_join root f) vv
            (fun p hp => hfresh f (List.mem_cons_self f rest) p hp)
        rw [hset] at hres
        exact ih (process_one_file cfg o total root f { st with checks := st.checks + 1 })
          (by
            intro g hg p hp
            rw [hres] at hp
            rw [List.mem_append] at hp
            rcases hp with hp | hp
            · exact hfresh g (List.mem_cons_of_mem f hg) p hp
            · rw [List.mem_singleton] at hp
              subst hp
              dsimp only
              intro hcontra
              by_cases hgig : ignore_file g = true
              · have hfg : f = g := os_path_join_right_inj root hcontra
                rw [hfg] at hf
                exact hf hgig
              · apply hnotmem
                rw [hcontra]
                exact List.mem_map_of_mem (os_path_join root)
                  (List.mem_filter.mpr ⟨hg, by simp [hgig]⟩))
          hnodup'
          (fun g hg => hslash g (List.mem_cons_of_mem f hg))

/-- Under a never-set stop flag, the directory loop only appends to the
result map, with keys among the walked paths. -/
theorem process_dirs_results_extend (cfg : Config) (o : Oracle) (total : Nat)
    (hstop : ∀ n, o.stop n = false) :
    ∀ (dirs : List (String × List String)) (st : LoopState),
      (∀ p ∈ st.results, ∀ q ∈ walk_paths dirs, p.1 ≠ q) →
      (walk_paths dirs).Nodup →
      (∀ q ∈ walk_paths dirs, ¬ '/' ∈ q.data) →
      ∃ ents, (process_dirs cfg o total dirs st).1.results = st.results ++ ents ∧
        ∀ p ∈ ents, p.1 ∈ walk_paths dirs := by
  intro dirs
  induction dirs with
  | nil =>
    intro st _ _ _
    exact ⟨[], by simp [process_dirs], by simp⟩
  | cons d rest ih =>
    intro st hfresh hnodup hslash
    obtain ⟨root, files⟩ := d
    rw [walk_paths_cons] at hfresh hnodup hslash
    rw [List.nodup_append] at hnodup
    obtain ⟨hnodup1, hnodup2, hdisj⟩ := hnodup
    simp only [process_dirs, hstop, Bool.false_eq_true, if_false]
    obtain ⟨ents1, hents1, hkeys1⟩ := process_dir_files_results cfg o total root hstop files
      { st with checks := st.checks + 1 }
      (fun g hg p hp => hfresh p hp (os_path_join root g)
        (List.mem_append_left _ (List.mem_map_of_mem _ hg)))
      (List.Nodup.sublist ((List.filter_sublist files).map (os_path_join root)) hnodup1)
      (fun g hg => hslash (os_path_join root g)
        (List.mem_append_left _ (List.mem_map_of_mem _ hg)))
    have hb := process_dir_files_no_cancel cfg o total root hstop files
      { st with checks := st.checks + 1 }
    rcases hfd : process_dir_files cfg o total root files
        { st with checks := st.checks + 1 } with ⟨st2, b⟩
    rw [hfd] at hb hents1
    have hb' : b = false := hb
    subst hb'
    dsimp only at hents1 ⊢
    have hmem1 : ∀ p ∈ ents1, p.1 ∈ files.map (os_path_join root) := by
      intro p hp
      have hp1 : p.1 ∈ (files.filter (fun f => !ignore_file f)).map
          (os_path_join root) := by
        rw [← hkeys1]
        exact List.mem_map_of_mem _ hp
      exact List.Sublist.mem hp1 ((List.filter_sublist files).map (os_path_join root))
    by_cases hbrk : (root == cfg.path && !cfg.recursive) = true
    · rw [if_pos hbrk]
      exact ⟨ents1, hents1, fun p hp =>
        List.mem_append_left _ (hmem1 p hp)⟩
    · rw [if_neg hbrk]
      obtain ⟨ents2, hents2, hmem2⟩ := ih st2
        (by
          intro p hp q hq
          rw [hents1] at hp
          rw [List.mem_append] at hp
          rcases hp with hp | hp
          · exact hfresh p hp q (List.mem_append_right _ hq)
          · intro hcontra
            exact hdisj (hmem1 p hp) (hcontra ▸ hq))
        hnodup2
        (fun q hq => hslash q (List.mem_append_right _ hq))
      refine ⟨ents1 ++ ents2, ?_, ?_⟩
      · rw [hents2, hents1, List.append_assoc]
      · intro p hp
        rw [List.mem_append] at hp
        rcases hp with hp | hp
        · exact List.mem_append_left _ (hmem1 p hp)
        · exact List.mem_append_right _ (hmem2 p hp)

/-- Cancellation only truncates the directory loop's result map. -/
theorem process_dirs_stop_prefix (cfg : Config) (o : Oracle) (total : Nat) :
    ∀ (dirs : List (String × List String)) (st : LoopState),
      (∀ p ∈ st.results, ∀ q ∈ walk_paths dirs, p.1 ≠ q) →
      (walk_paths dirs).Nodup →
      (∀ q ∈ walk_paths dirs, ¬ '/' ∈ q.data) →
      ∃ t, (process_dirs cfg (no_stop_oracle o) total dirs st).1.results =
        (process_dirs cfg o total dirs st).1.results ++ t := by
  intro dirs
  induction dirs with
  | nil => intro st _ _ _; exact ⟨[], by simp [process_dirs]⟩
  | cons d rest ih =>
    intro st hfresh hnodup hslash
    obtain ⟨root, files⟩ := d
    by_cases hs : o.stop st.checks = true
    · have hcanc : (process_dirs cfg o total ((root, files) :: rest) st).1.results
          = st.results := by
        simp only [process_dirs]
        rw [if_pos hs]
        rfl
      obtain ⟨ents, hents, _⟩ := process_dirs_results_extend cfg (no_stop_oracle o)
        total (fun _ => rfl) ((root, files) :: rest) st hfresh hnodup hslash
      exact ⟨ents, by rw [hents, hcanc]⟩
    · have hfreshd := hfresh
      have hnodupd := hnodup
      have hslashd := hslash
      rw [walk_paths_cons] at hfreshd hnodupd hslashd
      rw [List.nodup_append] at hnodupd
      obtain ⟨hnodup1, hnodup2, hdisj⟩ := hnodupd
      have hfresh1 : ∀ g ∈ files, ∀ p ∈ st.results, p.1 ≠ os_path_join root g :=
        fun g hg p hp => hfreshd p hp (os_path_join root g)
          (List.mem_append_left _ (List.mem_map_of_mem _ hg))
      have hnodupf : ((files.filter (fun f => !ignore_file f)).map
          (os_path_join root)).Nodup :=
        List.Nodup.sublist ((List.filter_sublist files).map (os_path_join root)) hnodup1
      have hslashf : ∀ g ∈ files, ¬ '/' ∈ (os_path_join root g).data :=
        fun g hg => hslashd (os_path_join root g)
          (List.mem_append_left _ (List.mem_map_of_mem _ hg))
      simp only [process_dirs]
      rw [show (no_stop_oracle o).stop st.checks = false from rfl]
      simp only [Bool.false_eq_true, if_false]
      rw [if_neg hs]
      rcases hfd : process_dir_files cfg o total root files
          { st with checks := st.checks + 1 } with ⟨st2, b⟩
      obtain ⟨ents1, hents1, hkeys1⟩ := process_dir_files_results cfg (no_stop_oracle o)
        total root (fun _ => rfl) files { st with checks := st.checks + 1 }
        (fun g hg p hp => hfresh1 g hg p hp)
        hnodupf hslashf
      have hmem1 : ∀ p ∈ ents1, p.1 ∈ files.map (os_path_join root) := by
        intro p hp
        have hp1 : p.1 ∈ (files.filter (fun f => !ignore_file f)).map
            (os_path_join root) := by
          rw [← hkeys1]
          exact List.mem_map_of_mem _ hp
        exact List.Sublist.mem hp1 ((List.filter_sublist files).map (os_path_join root))
      cases b with
      | true =>
        -- the o-run canceled inside this directory's files
        obtain ⟨t1, ht1⟩ := process_dir_files_stop_prefix cfg o total root files
          { st with checks := st.checks + 1 } hfresh1 hnodupf hslashf
        rw [hfd] at ht1
        dsimp only at ht1 ⊢
        -- the no-stop file loop does not cancel
        have hnb := process_dir_files_no_cancel cfg (no_stop_oracle o) total root
          (fun _ => rfl) files { st with checks := st.checks + 1 }
        rcases hnfd : process_dir_files cfg (no_stop_oracle o) total root files
            { st with checks := st.checks + 1 } with ⟨st3, b3⟩
        rw [hnfd] at hnb ht1 hents1
        have hb3 : b3 = false := hnb
        subst hb3
        dsimp only at ht1 hents1 ⊢
        by_cases hbrk : (root == cfg.path && !cfg.recursive) = true
        · rw [if_pos hbrk]
          exact ⟨t1, ht1⟩
        · rw [if_neg hbrk]
          obtain ⟨ents2, hents2, _⟩ := process_dirs_results_extend cfg (no_stop_oracle o)
            total (fun _ => rfl) rest st3
            (by
              intro p hp q hq
              rw [hents1] at hp
              rw [List.mem_append] at hp
              rcases hp with hp | hp
              · exact hfreshd p hp q (List.mem_append_right _ hq)
              · intro hcontra
                exact hdisj (hmem1 p hp) (hcontra ▸ hq))
            hnodup2
            (fun q hq => hslashd q (List.mem_append_right _ hq))
          refine ⟨t1 ++ ents2, ?_⟩
          rw [hents2, ht1, List.append_assoc]
      | false =>
        -- neither run canceled in this directory: they agree on it
        have heqf := process_dir_files_no_cancel_eq cfg o total root files
          { st with checks := st.checks + 1 } (by rw [hfd])
        rw [heqf, hfd]
        dsimp only
        rw [hfd] at heqf
        rw [heqf] at hents1
        dsimp only at hents1
        by_cases hbrk : (root == cfg.path && !cfg.recursive) = true
        · rw [if_pos hbrk, if_pos hbrk]
          exact ⟨[], by simp⟩
        · rw [if_neg hbrk, if_neg hbrk]
          exact ih st2
            (by
              intro p hp q hq
              rw [hents1] at hp
              rw [List.mem_append] at hp
              rcases hp with hp | hp
              · exact hfreshd p hp q (List.mem_append_right _ hq)
              · intro hcontra
                exact hdisj (hmem1 p hp) (hcontra ▸ hq))
            hnodup2
            (fun q hq => hslashd q (List.mem_append_right _ hq))

/-- Claim C9 (confirmed): whenever the stop flag is observed set at a
file-loop boundary, the run's event stream ends with the canceled status
followed by the forced 100% progress, no export is performed, the
"Search complete." status is never emitted, and the result map is a prefix
of what the same run with the flag never set would have recorded — the
canceled run contains only the files recorded before the observation. -/
theorem C9_cancellation_semantics (cfg : Config) (o : Oracle)
    (tree : List (String × List String))
    (hnodup : (walk_paths tree).Nodup)
    (hslash : ∀ q ∈ walk_paths tree, ¬ '/' ∈ q.data)
    (hc : (process_files cfg o tree).terminal = Terminal.canceled) :
    (∃ pre, (process_files cfg o tree).events =
        pre ++ [Event.finished "<br><b>Process canceled.</b>", Event.progress 100]) ∧
    (process_files cfg o tree).save = none ∧
    Event.finished "<br><b>Search complete.</b>" ∉ (process_files cfg o tree).events ∧
    ∃ t, (process_files cfg (no_stop_oracle o) tree).results =
      (process_files cfg o tree).results ++ t := by
  by_cases htot : find_file_count_loop cfg.recursive tree = 0
  · exfalso
    simp only [process_files] at hc
    rw [if_pos htot] at hc
    exact Terminal.noConfusion hc
  · rcases hp : process_dirs cfg o (find_file_count_loop cfg.recursive tree) tree
        (init_state (find_file_count_loop cfg.recursive tree)) with ⟨st, b⟩
    cases b with
    | false =>
      exfalso
      simp only [process_files] at hc
      rw [if_neg htot, hp] at hc
      exact Terminal.noConfusion hc
    | true =>
      have hrun : process_files cfg o tree =
          { events := st.events, results := st.results, issued := st.issued,
            counter := st.counter, save := none, terminal := Terminal.canceled } := by
        simp only [process_files]
        rw [if_neg htot, hp]
      refine ⟨?_, ?_, ?_, ?_⟩
      · obtain ⟨pre, hpre⟩ := process_dirs_canceled_suffix cfg o
          (find_file_count_loop cfg.recursive tree) tree
          (init_state (find_file_count_loop cfg.recursive tree)) (by rw [hp])
        rw [hp] at hpre
        exact ⟨pre, by rw [hrun]; exact hpre⟩
      · rw [hrun]
      · rw [hrun]
        dsimp only
        obtain ⟨new, hev, hshape⟩ := process_dirs_events_shape cfg o
          (find_file_count_loop cfg.recursive tree) tree
          (init_state (find_file_count_loop cfg.recursive tree))
        rw [hp] at hev
        dsimp only at hev
        rw [hev]
        intro hmem
        rw [List.mem_append] at hmem
        rcases hmem with hmem | hmem
        · simp only [init_state, init_events] at hmem
          rw [List.mem_cons, List.mem_cons, List.mem_singleton] at hmem
          rcases hmem with h1 | h1 | h1
          · exact Event.noConfusion h1
          · injection h1 with h1'
            exact absurd h1' (by decide)
          · injection h1 with h1'
            rw [String.append_assoc] at h1'
            exact append_ne_of_data_get "<b>File count completed for "
              (toString (find_file_count_loop cfg.recursive tree) ++ " files.</b>")
              "<br><b>Search complete.</b>" 2 '>' (by decide) (by decide) h1'.symm
        · exact not_search_complete_of_shape _ (hshape _ hmem) rfl
      · obtain ⟨st2, hp2, heq2⟩ := process_files_completed_spec cfg (no_stop_oracle o)
          tree (fun _ => rfl) htot
        obtain ⟨t, ht⟩ := process_dirs_stop_prefix cfg o
          (find_file_count_loop cfg.recursive tree) tree
          (init_state (find_file_count_loop cfg.recursive tree))
          (by intro p hp'; simp [init_state] at hp') hnodup hslash
        rw [hp, hp2] at ht
        dsimp only at ht
        refine ⟨t, ?_⟩
        rw [heq2, hrun]
        dsimp only
        rw [save_results_results_out]
        exact ht

theorem C9_cancellation_semantics_witness :
    (∃ pre, (process_files c9_cfg c9_oracle c9_tree).events =
        pre ++ [Event.finished "<br><b>Process canceled.</b>", Event.progress 100]) ∧
    (process_files c9_cfg c9_oracle c9_tree).save = none ∧
    Event.finished "<br><b>Search complete.</b>" ∉
      (process_files c9_cfg c9_oracle c9_tree).events ∧
    ∃ t, (process_files c9_cfg (no_stop_oracle c9_oracle) c9_tree).results =
      (process_files c9_cfg c9_oracle c9_tree).results ++ t :=
  C9_cancellation_semantics c9_cfg c9_oracle c9_tree (by decide) (by decide) (by decide)

end BatchArchivedOrNot
